import Mathlib

/-!
Verification development for the `sync-ldap-subtrees` reconciliation tool
(`src/bin/sync_ldap_subtrees.rs`).

The Rust program is embedded shallowly:

* `String` values are modelled by Lean `String` (whose `data` field is a
  `List Char`); all string comparisons, lowercasing and splitting are done
  on the underlying character lists so that every definition evaluates
  inside the kernel.  Byte strings (`Vec<u8>`) are modelled as `List Nat`.
* `HashMap` values are modelled as association lists (`List (String × _)`);
  the well-formedness predicate `WFStore` records the HashMap invariant
  that keys are unique.  `HashSet` values are modelled by canonical
  (deduplicated, and for strings sorted) lists, so that list equality
  coincides with set equality on the values the program builds.
* Fallible operations return `Option`; the network layer is replaced by
  explicit lists of returned entries (for searches) and a list of issued
  requests (for the applier).
* External crates that the program consumes (the `diff` crate, the
  `ldap_types` distinguished-name ordering, the schema lookups) are
  modelled from their documented contracts; each such definition carries a
  doc comment saying so.
-/

/-! ## Character-list string primitives -/

/-- Lexicographic less-or-equal on character lists, mirroring the ordering
Rust uses for `String` (byte-wise lexicographic; on the ASCII data handled
here character-wise comparison agrees with byte-wise comparison). -/
def charListLe : List Char → List Char → Bool
  | [], _ => true
  | _ :: _, [] => false
  | c :: cs, d :: ds => if c = d then charListLe cs ds else decide (c < d)

/-- Lexicographic less-or-equal on strings via their character lists. -/
def strLe (a b : String) : Bool := charListLe a.data b.data

/-- Lexicographic less-or-equal on byte strings. -/
def byteListLe : List Nat → List Nat → Bool
  | [], _ => true
  | _ :: _, [] => false
  | c :: cs, d :: ds => if c = d then byteListLe cs ds else decide (c < d)

/-- Model of Rust `str::to_lowercase` (character-wise; agrees with Rust on
ASCII data, which is all the program compares case-insensitively). -/
def strLower (s : String) : String := String.mk (s.data.map Char.toLower)

/-- Model of Rust `str::as_bytes` (character values; injective, which is the
only property the program relies on when it turns attribute names and
textual values into byte strings). -/
def strToBytes (s : String) : List Nat := s.data.map Char.toNat

/-- Model of Rust `str::strip_suffix`: strip `suf` from the end of `s`,
returning `none` when `s` does not end with `suf`. -/
def stripSuffixStr (s suf : String) : Option String :=
  if s.data.length < suf.data.length then none
  else if s.data.drop (s.data.length - suf.data.length) = suf.data then
    some (String.mk (s.data.take (s.data.length - suf.data.length)))
  else none

/-- Test whether `pat` starts the list `s`. -/
def startsWithL : List Char → List Char → Bool
  | [], _ => true
  | _ :: _, [] => false
  | c :: cs, d :: ds => c = d && startsWithL cs ds

/-- Fuel-indexed worker for `strReplace`.  With fuel at least the length of
the subject list it performs exactly Rust's left-to-right non-overlapping
replacement of `pat` by `rep` (each replacement consumes the matched text
and continues after it). -/
def replaceAllAux (pat rep : List Char) : Nat → List Char → List Char
  | 0, s => s
  | Nat.succ fuel, s =>
    match s with
    | [] => []
    | c :: cs =>
      if pat ≠ [] ∧ startsWithL pat s = true then
        rep ++ replaceAllAux pat rep fuel (s.drop pat.length)
      else c :: replaceAllAux pat rep fuel cs

/-- Model of Rust `str::replace(pat, rep)`: replace every non-overlapping
occurrence of `pat` in `s` by `rep`, scanning left to right.  (Rust's
behaviour on the degenerate empty pattern, which inserts `rep` at every
boundary, is not needed: the program only ever replaces base DNs, and an
LDAP base DN is non-empty.) -/
def strReplace (s pat rep : String) : String :=
  String.mk (replaceAllAux pat.data rep.data s.data.length s.data)

/-- Test whether `pat` occurs as a contiguous substring of `s`. -/
def containsSub : List Char → List Char → Bool
  | _, [] => false
  | pat, c :: cs => startsWithL pat (c :: cs) || containsSub pat cs

/-- Test whether the string `pat` occurs inside the string `s` (used only to
state properties; `containsSub pat.data s.data` with a nonempty `pat`). -/
def strContains (s pat : String) : Bool :=
  startsWithL pat.data s.data || containsSub pat.data s.data

/-- Split a character list at every occurrence of the character `sep`. -/
def splitOnCharL (sep : Char) : List Char → List (List Char)
  | [] => [[]]
  | c :: cs =>
    let rest := splitOnCharL sep cs
    if c = sep then [] :: rest
    else match rest with
      | [] => [[c]]
      | r :: rs => (c :: r) :: rs

/-- Split a string on a separator character, as `String.splitOn` does for a
one-character separator. -/
def splitOnCharStr (sep : Char) (s : String) : List String :=
  (splitOnCharL sep s.data).map String.mk

/-! ## Ordering lemmas for the string order -/

def charListLe_total : ∀ a b, charListLe a b = true ∨ charListLe b a = true := by
  intro a
  induction a with
  | nil => intro b; left; rfl
  | cons c cs ih =>
    intro b
    cases b with
    | nil => right; rfl
    | cons d ds =>
      by_cases hcd : c = d
      · subst hcd
        rcases ih ds with h | h
        · left; simpa [charListLe] using h
        · right; simpa [charListLe] using h
      · rcases lt_or_gt_of_ne hcd with h | h
        · left; simp [charListLe, hcd, h]
        · right
          have hdc : d ≠ c := fun hh => hcd hh.symm
          simp [charListLe, hdc, h]

def charListLe_trans :
    ∀ a b c, charListLe a b = true → charListLe b c = true → charListLe a c = true := by
  intro a
  induction a with
  | nil => intro b c _ _; rfl
  | cons x xs ih =>
    intro b c hab hbc
    cases b with
    | nil => simp [charListLe] at hab
    | cons y ys =>
      cases c with
      | nil => simp [charListLe] at hbc
      | cons z zs =>
        by_cases hxy : x = y <;> by_cases hyz : y = z
        · subst hxy; subst hyz
          simp [charListLe] at hab hbc ⊢
          exact ih _ _ hab hbc
        · subst hxy
          simpa [charListLe, hyz] using hbc
        · subst hyz
          simpa [charListLe, hxy] using hab
        · simp [charListLe, hxy, hyz] at hab hbc
          have hxz : x < z := lt_trans (by exact_mod_cast hab) (by exact_mod_cast hbc)
          have hne : x ≠ z := ne_of_lt hxz
          simp [charListLe, hne]
          exact hxz

def charListLe_antisymm :
    ∀ a b, charListLe a b = true → charListLe b a = true → a = b := by
  intro a
  induction a with
  | nil =>
    intro b _ hba
    cases b with
    | nil => rfl
    | cons d ds => simp [charListLe] at hba
  | cons c cs ih =>
    intro b hab hba
    cases b with
    | nil => simp [charListLe] at hab
    | cons d ds =>
      by_cases hcd : c = d
      · subst hcd
        simp [charListLe] at hab hba
        exact congrArg (c :: ·) (ih ds hab hba)
      · have hdc : d ≠ c := fun hh => hcd hh.symm
        simp [charListLe, hcd] at hab
        simp [charListLe, hdc] at hba
        exact absurd hba (not_lt_of_gt hab)

/-- The ordering relation used whenever the program sorts textual values. -/
def strLeRel (a b : String) : Prop := strLe a b = true

instance : DecidableRel strLeRel := fun a b => instDecidableEqBool (strLe a b) true

instance : IsTotal String strLeRel :=
  ⟨fun a b => charListLe_total a.data b.data⟩

instance : IsTrans String strLeRel :=
  ⟨fun a b c hab hbc => charListLe_trans a.data b.data c.data hab hbc⟩

instance : IsAntisymm String strLeRel :=
  ⟨fun a b hab hba => String.ext (charListLe_antisymm a.data b.data hab hba)⟩

instance : IsRefl String strLeRel :=
  ⟨fun a => by
    have := charListLe_total a.data a.data
    rcases this with h | h <;> exact h⟩

/-! ## Canonical finite sets

`HashSet<String>` values are represented canonically as sorted duplicate-free
lists and `HashSet<Vec<u8>>` values as duplicate-free lists, so that list
equality agrees with the set equality Rust uses when it compares mods. -/

/-- Canonical representation of `HashSet::from_iter` on strings: drop
duplicates and sort.  List equality of two such representations coincides
with equality of the underlying sets. -/
def sortedDedup (l : List String) : List String :=
  List.insertionSort strLeRel l.dedup

/-- Model of `HashSet::remove` on the canonical representation: drop the
element (it occurs at most once). -/
def removeVal (x : String) : List String → List String
  | [] => []
  | y :: ys => if y = x then ys else y :: removeVal x ys

/-! ## Data model (`LDAPEntry`, operations, options, schema) -/

/-- Represents an object in the LDAP tree (struct `LDAPEntry`): the DN, the
textual attributes and the binary attributes.  The attribute maps are
association lists standing in for `HashMap`s. -/
structure LDAPEntry where
  dn : String
  attrs : List (String × List String)
  bin_attrs : List (String × List (List Nat))
deriving DecidableEq

/-- Model of `ldap3::Mod<S>`: a single modification of one attribute.  The
value collections are `HashSet`s in Rust and are represented canonically
(see above). -/
inductive LMod (α : Type) where
  | add (attr : α) (values : List α)
  | delete (attr : α) (values : List α)
  | replace (attr : α) (values : List α)
  | increment (attr : α) (value : α)
deriving DecidableEq

/-- An operation we need to perform to sync the two LDAP servers (enum
`LDAPOperation`). -/
inductive LDAPOperation where
  | add (entry : LDAPEntry)
  | delete (dn : String)
  | modify (dn : String) (mods : List (LMod String)) (bin_mods : List (LMod (List Nat)))
deriving DecidableEq

/-- The command-line options consumed by the reconciliation core (struct
`Options`; the connection-profile paths, scope and filter strings, which
the pure core never reads, are omitted). -/
structure Options where
  dry_run : Bool
  add : Bool
  update : Bool
  delete : Bool
  attributes : List String
  ignore_object_classes : List String
  ignore_attributes : List String
  include_children : Bool
deriving DecidableEq

/-- Modelled from the spec: the equality matching rule of an attribute type
as the program consumes it — the only question asked of it is
`describes_case_insensitive_match()`. -/
structure EqualityMatchingRule where
  describes_case_insensitive_match : Bool
deriving DecidableEq

/-- Modelled from the spec: the LDAP schema view consumed by the program.
`synOf a` models `schema.find_attribute_type_property(a, |at| at.syntax)`
(the attribute type's syntax OID, rendered as a string) and `eqOf a` models
`schema.find_attribute_type_property(a, |at| at.equality)`. -/
structure LDAPSchema where
  synOf : String → Option String
  eqOf : String → Option EqualityMatchingRule

/-- The well-known OID `1.3.6.1.4.1.1466.115.121.1.12` denoting the
Distinguished Name attribute syntax (static `DN_SYNTAX_OID`). -/
def dnOID : String := "1.3.6.1.4.1.1466.115.121.1.12"

/-- Association-list lookup, modelling `HashMap::get`. -/
def lookupA {β : Type} (k : String) : List (String × β) → Option β
  | [] => none
  | p :: rest => if k = p.1 then some p.2 else lookupA k rest

/-- Well-formedness of an entry store coming from a `HashMap` world: the
DN keys are unique and every entry's attribute maps have unique keys. -/
def WFStore (es : List (String × LDAPEntry)) : Prop :=
  (es.map Prod.fst).Nodup ∧
    ∀ p ∈ es, ((p : String × LDAPEntry).2.attrs.map Prod.fst).Nodup ∧
      (p.2.bin_attrs.map Prod.fst).Nodup

instance : DecidablePred WFStore := fun es => by
  unfold WFStore
  infer_instance

/-! ## Model of the external `diff` crate

The program derives `Diff` for `LDAPEntry` and calls
`Diff::diff(&source_entries, &destination_entries)`.  The crate's contract
(`self.apply(&self.diff(other)) == other`): for a `HashMap`, `removed`
collects the keys present in `self` but absent from `other`, and `altered`
collects (a) every key present in both sides whose values differ, with the
value-level diff, and (b) every key present only in `other`, diffed from
the `Diff::identity()` value.  For a `Vec`, the diff is a list of change
records that is empty exactly when the vectors are equal; a vector diffed
from the identity (empty) vector yields a single `Inserted` record.  These
definitions are modelled from that contract. -/

/-- Modelled from the `diff` crate: a single change record of a `Vec` diff
(`VecDiffType`).  The payloads are carried around but never inspected by
the program, which matches on all three variants with one arm. -/
inductive VecDiffType (ρ : Type) where
  | removed (index : Nat) (len : Nat)
  | altered (index : Nat) (changes : List ρ)
  | inserted (changes : List ρ) (len : Nat)
deriving DecidableEq

/-- Modelled from the `diff` crate: the position-wise part of a `Vec` diff —
one `altered` record for every index (below both lengths) at which the two
vectors disagree. -/
def vecDiffAux {σ ρ : Type} [DecidableEq σ] (dv : σ → σ → ρ) :
    Nat → List σ → List σ → List (VecDiffType ρ)
  | _, [], _ => []
  | _, _ :: _, [] => []
  | i, x :: xs, y :: ys =>
    if x = y then vecDiffAux dv (i + 1) xs ys
    else VecDiffType.altered i [dv x y] :: vecDiffAux dv (i + 1) xs ys

/-- Modelled from the `diff` crate: the diff of two `Vec`s — the
position-wise records followed by one `removed` record when the left
vector is longer, or one `inserted` record when the right vector is
longer. -/
def vecDiff {σ ρ : Type} [DecidableEq σ] (dv : σ → σ → ρ) (idv : σ → ρ)
    (a b : List σ) : List (VecDiffType ρ) :=
  vecDiffAux dv 0 a b ++
    (if b.length < a.length then [VecDiffType.removed b.length (a.length - b.length)]
     else if a.length < b.length then
       [VecDiffType.inserted ((b.drop a.length).map idv) (b.length - a.length)]
     else [])

/-- Modelled from the `diff` crate: the diff representation of a `HashMap`
(`HashMapDiff`): the altered keys with their value diffs, and the removed
keys. -/
structure HashMapDiff (ρ : Type) where
  altered : List (String × ρ)
  removed : List String
deriving DecidableEq

/-- Modelled from the `diff` crate: diff of two `HashMap`s.  `removed` holds
the keys of `a` missing from `b`; `altered` holds the keys present in both
maps with differing values (diffed value against value) followed by the
keys present only in `b` (diffed from the identity value). -/
def hashMapDiff {σ ρ : Type} [DecidableEq σ] (dv : σ → σ → ρ) (idv : σ → ρ)
    (a b : List (String × σ)) : HashMapDiff ρ :=
  { altered :=
      (a.filterMap (fun p =>
        match lookupA p.1 b with
        | some w => if p.2 = w then none else some (p.1, dv p.2 w)
        | none => none)) ++
      (b.filterMap (fun q =>
        if (lookupA q.1 a).isSome then none else some (q.1, idv q.2))),
    removed :=
      a.filterMap (fun p => if (lookupA p.1 b).isSome then none else some p.1) }

/-- Modelled from the `diff` crate: the element-level diff used inside
`Vec<String>` diffs (`String`'s diff representation; never inspected by the
program). -/
def strElemDiff (x y : String) : Option String :=
  if x = y then none else some y

/-- Modelled from the `diff` crate: the element-level diff used inside
`Vec<Vec<u8>>` diffs (never inspected by the program). -/
def byteElemDiff (x y : List Nat) : Option (List Nat) :=
  if x = y then none else some y

/-- The derived diff representation of an `LDAPEntry` (`LDAPEntryDiff`):
field-wise diffs of `dn`, `attrs` and `bin_attrs`.  Only the `attrs` and
`bin_attrs` fields are ever read by the program. -/
structure LDAPEntryDiff where
  dn : Option String
  attrs : HashMapDiff (List (VecDiffType (Option String)))
  bin_attrs : HashMapDiff (List (VecDiffType (Option (List Nat))))
deriving DecidableEq

/-- Diff of the textual attribute maps of two entries. -/
def attrsDiff (a b : List (String × List String)) :
    HashMapDiff (List (VecDiffType (Option String))) :=
  hashMapDiff (vecDiff strElemDiff (fun y => some y))
    (fun w => vecDiff strElemDiff (fun y => some y) [] w) a b

/-- Diff of the binary attribute maps of two entries. -/
def binAttrsDiff (a b : List (String × List (List Nat))) :
    HashMapDiff (List (VecDiffType (Option (List Nat)))) :=
  hashMapDiff (vecDiff byteElemDiff (fun y => some y))
    (fun w => vecDiff byteElemDiff (fun y => some y) [] w) a b

/-- Modelled from the `diff` crate: the derived field-wise diff of two
`LDAPEntry` values. -/
def ldapEntryDiff (v w : LDAPEntry) : LDAPEntryDiff :=
  { dn := strElemDiff v.dn w.dn,
    attrs := attrsDiff v.attrs w.attrs,
    bin_attrs := binAttrsDiff v.bin_attrs w.bin_attrs }

/-- Modelled from the `diff` crate: `LDAPEntry::identity()` — empty string
and empty maps. -/
def identityEntry : LDAPEntry := { dn := "", attrs := [], bin_attrs := [] }

/-- The entry-store diff `Diff::diff(&source_entries, &destination_entries)`
computed by `do_sync`. -/
def entriesDiff (se de : List (String × LDAPEntry)) : HashMapDiff LDAPEntryDiff :=
  hashMapDiff ldapEntryDiff (fun w => ldapEntryDiff identityEntry w) se de

/-! ## `search_entries` -/

/-- An entry as returned by the directory server, before base-DN
stripping (the `SearchEntry` data consumed by `search_entries`). -/
structure RawEntry where
  dn : String
  attrs : List (String × List String)
  bin_attrs : List (String × List (List Nat))
deriving DecidableEq

/-- Model of `HashMap::insert`: replace the value when the key is present,
append otherwise. -/
def hmInsert {β : Type} (m : List (String × β)) (k : String) (v : β) :
    List (String × β) :=
  if (lookupA k m).isSome then
    m.map (fun p => if p.1 = k then (k, v) else p)
  else m ++ [(k, v)]

/-- Embedding of `search_entries` restricted to its pure content: the
network search is replaced by the list `found` of entries the server
returned.  Each returned entry whose DN ends in `"," ++ base_dn` is
inserted into the store keyed (and re-labelled) by the stripped relative
DN; entries without that suffix are skipped (the Rust logs an error for
them). -/
def search_entries (base_dn : String) (found : List RawEntry)
    (entries : List (String × LDAPEntry)) : List (String × LDAPEntry) :=
  found.foldl (fun acc entry =>
    match stripSuffixStr entry.dn ("," ++ base_dn) with
    | some s => hmInsert acc s { dn := s, attrs := entry.attrs, bin_attrs := entry.bin_attrs }
    | none => acc) entries

/-! ## `mod_value` -/

/-- The replacement value set shared by the altered-attribute path of
`mod_value` (lines 417-443) and the removed-attribute loop of `do_sync`
(lines 672-698), which duplicate the identical computation in the source:
the value set of the attribute, minus the ignored object classes when the
attribute is `objectClass`, with every value rewritten by base-DN
substitution when the attribute's schema syntax is the DN syntax. -/
def replacementValues (options : Options) (schema : LDAPSchema)
    (source_base_dn destination_base_dn : String) (attr_name : String)
    (values : List String) : List String :=
  let replacement0 := sortedDedup values
  let replacement1 :=
    if attr_name = "objectClass" then
      options.ignore_object_classes.foldl (fun s io => removeVal io s) replacement0
    else replacement0
  match schema.synOf attr_name with
  | some syn =>
    if syn = dnOID then
      sortedDedup (replacement1.map
        (fun s => strReplace s source_base_dn destination_base_dn))
    else replacement1
  | none => replacement1

/-- Embedding of `mod_value`: compute the modification for one altered
textual attribute.  When the source entry has the attribute, the
replacement set is the source values, minus the ignored object classes
when the attribute is `objectClass`, rewritten by base-DN substitution
when the attribute's schema syntax is the DN syntax; the result is `none`
when the destination already holds the same values (byte-for-byte, or
lowercased when the schema's equality rule is case-insensitive) and
`Replace` otherwise.  When the source entry lacks the attribute the result
is `Delete(attr, ∅)`.  (The Rust function's `Result` wrapper never carries
an error on this path and is dropped.) -/
def mod_value (attr_name : String) (source_entry : LDAPEntry)
    (source_ldap_schema : LDAPSchema) (source_base_dn : String)
    (destination_entry : Option LDAPEntry) (destination_base_dn : String)
    (options : Options) : Option (LMod String) :=
  match lookupA attr_name source_entry.attrs with
  | some values =>
    let replacement2 := replacementValues options source_ldap_schema source_base_dn
      destination_base_dn attr_name values
    match destination_entry with
    | some dest =>
      match lookupA attr_name dest.attrs with
      | some destination_values =>
        let replacement_values_sorted := List.insertionSort strLeRel replacement2
        let destination_values_sorted := List.insertionSort strLeRel destination_values
        if replacement_values_sorted = destination_values_sorted then none
        else
          match source_ldap_schema.eqOf attr_name with
          | some equality =>
            if equality.describes_case_insensitive_match then
              let lower_destination_values :=
                List.insertionSort strLeRel (destination_values_sorted.map strLower)
              let lower_replacement_values :=
                List.insertionSort strLeRel (replacement2.map strLower)
              if lower_destination_values = lower_replacement_values then none
              else some (LMod.replace attr_name replacement2)
            else some (LMod.replace attr_name replacement2)
          | none => some (LMod.replace attr_name replacement2)
      | none => some (LMod.replace attr_name replacement2)
    | none => some (LMod.replace attr_name replacement2)
  | none => some (LMod.delete attr_name [])

/-! ## Plan construction (`do_sync`, lines 631-786) -/

/-- Model of the `if !mods.contains(&m) { mods.push(m) }` pattern used to
deduplicate modifications. -/
def pushDedup {α : Type} [DecidableEq α] (acc : List α) (m : α) : List α :=
  if m ∈ acc then acc else acc ++ [m]

/-- The body run once per value-level change record of one altered textual
attribute in `do_sync`: call `mod_value` (whose arguments do not depend on
the record) and push the result if it is not already present. -/
def textAlteredStep (options : Options) (schema : LDAPSchema)
    (source_base_dn destination_base_dn : String) (source_entry : LDAPEntry)
    (destination_entry : Option LDAPEntry) (attr_name : String)
    (acc2 : List (LMod String)) : List (LMod String) :=
  match mod_value attr_name source_entry schema source_base_dn destination_entry
      destination_base_dn options with
  | some m => pushDedup acc2 m
  | none => acc2

/-- The loop over `change.attrs.altered` in `do_sync` as a fold of the step
above: skip ignored attributes, run the step once per value-level change
record. -/
def textAlteredMods (options : Options) (schema : LDAPSchema)
    (source_base_dn destination_base_dn : String) (source_entry : LDAPEntry)
    (destination_entry : Option LDAPEntry)
    (altered : List (String × List (VecDiffType (Option String)))) :
    List (LMod String) :=
  altered.foldl (fun acc p =>
    if p.1 ∈ options.ignore_attributes then acc
    else
      p.2.foldl (fun acc2 _ =>
        textAlteredStep options schema source_base_dn destination_base_dn
          source_entry destination_entry p.1 acc2) acc) []

/-- The replacement values built in the loop over `change.attrs.removed` in
`do_sync`: the source values (`source_entry.attrs[attr_name]`; the direct
indexing is total because removed keys are source keys, see the lookup
safety theorem), minus ignored object classes for `objectClass`, rewritten
when the attribute has DN syntax. -/
def removedAttrValues (options : Options) (schema : LDAPSchema)
    (source_base_dn destination_base_dn : String) (source_entry : LDAPEntry)
    (attr_name : String) : List String :=
  replacementValues options schema source_base_dn destination_base_dn attr_name
    ((lookupA attr_name source_entry.attrs).getD [])

/-- The loop over `change.attrs.removed` in `do_sync`: skip ignored
attributes and push `Mod::Add(attr, replacement_values)` for each
remaining removed key. -/
def textRemovedMods (options : Options) (schema : LDAPSchema)
    (source_base_dn destination_base_dn : String) (source_entry : LDAPEntry)
    (removed : List String) : List (LMod String) :=
  removed.filterMap (fun attr_name =>
    if attr_name ∈ options.ignore_attributes then none
    else some (LMod.add attr_name
      (removedAttrValues options schema source_base_dn destination_base_dn
        source_entry attr_name)))

/-- The body run once per change record of one altered binary attribute in
`do_sync`: push (deduplicated) a `Replace` with the source values when the
source entry has the attribute, and push a `Delete(attr, ∅)` otherwise. -/
def binAlteredStep (source_entry : LDAPEntry) (attr_name : String)
    (acc2 : List (LMod (List Nat))) : List (LMod (List Nat)) :=
  match lookupA attr_name source_entry.bin_attrs with
  | some values => pushDedup acc2 (LMod.replace (strToBytes attr_name) values.dedup)
  | none => acc2 ++ [LMod.delete (strToBytes attr_name) []]

/-- The loop over `change.bin_attrs.altered` in `do_sync` as a fold of the
step above: skip ignored attributes, run the step once per change
record. -/
def binAlteredMods (options : Options) (source_entry : LDAPEntry)
    (altered : List (String × List (VecDiffType (Option (List Nat))))) :
    List (LMod (List Nat)) :=
  altered.foldl (fun acc p =>
    if p.1 ∈ options.ignore_attributes then acc
    else
      p.2.foldl (fun acc2 _ => binAlteredStep source_entry p.1 acc2) acc) []

/-- The loop over `change.bin_attrs.removed` in `do_sync`: skip ignored
attributes and push `Mod::Add(attr, source_values)` for each remaining
removed key. -/
def binRemovedMods (options : Options) (source_entry : LDAPEntry)
    (removed : List String) : List (LMod (List Nat)) :=
  removed.filterMap (fun attr_name =>
    if attr_name ∈ options.ignore_attributes then none
    else some (LMod.add (strToBytes attr_name)
      (((lookupA attr_name source_entry.bin_attrs).getD []).dedup)))

/-- The `remove_entry("objectClass")`/filter/insert step of the Add-entry
transformation in `do_sync`: when `objectClass` is present, replace its
value list with the values not listed in `ignore_object_classes`. -/
def objectClassFiltered (options : Options)
    (attrs1 : List (String × List String)) : List (String × List String) :=
  match lookupA "objectClass" attrs1 with
  | some v =>
    (attrs1.filter (fun p => p.1 ≠ "objectClass")) ++
      [("objectClass", v.filter (fun x => x ∉ options.ignore_object_classes))]
  | none => attrs1

/-- The in-place base-DN rewriting of one attribute of the Add-entry
transformation in `do_sync`: rewrite every value when the attribute's
schema syntax is the DN syntax. -/
def dnRewriteAttr (schema : LDAPSchema) (source_base_dn destination_base_dn : String)
    (p : String × List String) : String × List String :=
  match schema.synOf p.1 with
  | some syn =>
    if syn = dnOID then
      (p.1, p.2.map (fun s => strReplace s source_base_dn destination_base_dn))
    else p
  | none => p

/-- The entry transformation applied to each source-only DN before the
`Add` operation is emitted (`do_sync`, lines 752-784): remove ignored
attributes from both maps, filter ignored object classes out of
`objectClass`, and rewrite the values of every DN-syntax attribute. -/
def removedEntryToAdd (options : Options) (schema : LDAPSchema)
    (source_base_dn destination_base_dn : String) (e0 : LDAPEntry) : LDAPEntry :=
  let attrs1 : List (String × List String) := options.ignore_attributes.foldl
    (fun m ia => m.filter (fun p => p.1 ≠ ia)) e0.attrs
  let bin1 : List (String × List (List Nat)) := options.ignore_attributes.foldl
    (fun m ia => m.filter (fun p => p.1 ≠ ia)) e0.bin_attrs
  let attrs3 := (objectClassFiltered options attrs1).map
    (dnRewriteAttr schema source_base_dn destination_base_dn)
  { dn := e0.dn, attrs := attrs3, bin_attrs := bin1 }

/-- The complete textual mod list collected for one entry by the
`diff.altered` body of `do_sync`: the altered-attribute loop followed by
the removed-attribute loop, pushing into the same `ldap_mods` vector. -/
def entryTextMods (options : Options) (schema : LDAPSchema)
    (source_base_dn destination_base_dn : String) (source_entry : LDAPEntry)
    (destination_entry : Option LDAPEntry) (ch : LDAPEntryDiff) :
    List (LMod String) :=
  textAlteredMods options schema source_base_dn destination_base_dn source_entry
    destination_entry ch.attrs.altered ++
  textRemovedMods options schema source_base_dn destination_base_dn source_entry
    ch.attrs.removed

/-- The complete binary mod list collected for one entry by the
`diff.altered` body of `do_sync`. -/
def entryBinMods (options : Options) (source_entry : LDAPEntry)
    (ch : LDAPEntryDiff) : List (LMod (List Nat)) :=
  binAlteredMods options source_entry ch.bin_attrs.altered ++
  binRemovedMods options source_entry ch.bin_attrs.removed

/-- The body of the loop over `diff.altered` in `do_sync`: when the DN is
present at the source, collect the textual and binary mods and emit a
single `Modify` when updating is enabled and some mod survived; when the
DN is destination-only, emit a `Delete` when deleting is enabled. -/
def handleAltered (options : Options) (schema : LDAPSchema)
    (source_base_dn destination_base_dn : String)
    (source_entries destination_entries : List (String × LDAPEntry))
    (p : String × LDAPEntryDiff) : List LDAPOperation :=
  match lookupA p.1 source_entries with
  | some source_entry =>
    let destination_entry := lookupA p.1 destination_entries
    let ldap_mods := entryTextMods options schema source_base_dn destination_base_dn
      source_entry destination_entry p.2
    let ldap_bin_mods := entryBinMods options source_entry p.2
    if options.update && !(ldap_mods.isEmpty && ldap_bin_mods.isEmpty) then
      [LDAPOperation.modify source_entry.dn ldap_mods ldap_bin_mods]
    else []
  | none => if options.delete then [LDAPOperation.delete p.1] else []

/-- The full (unsorted) operation plan computed by `do_sync` from the two
entry stores: the `diff.altered` loop (Modifies and Deletes) followed by
the `diff.removed` loop (Adds; `source_entries[&removed_dn]` is modelled
by a defaulted lookup whose totality is proved separately). -/
def buildOperations (options : Options) (schema : LDAPSchema)
    (source_base_dn destination_base_dn : String)
    (source_entries destination_entries : List (String × LDAPEntry)) :
    List LDAPOperation :=
  let diff := entriesDiff source_entries destination_entries
  diff.altered.flatMap
    (handleAltered options schema source_base_dn destination_base_dn
      source_entries destination_entries) ++
  diff.removed.filterMap (fun removed_dn =>
    if options.add then
      some (LDAPOperation.add (removedEntryToAdd options schema source_base_dn
        destination_base_dn ((lookupA removed_dn source_entries).getD identityEntry)))
    else none)

/-! ## Operation ordering and the applier -/

/-- Modelled from the spec: `dn_parser().parse(s)` — parse a DN into its
comma-separated components.  (The real chumsky parser can fail on
malformed DNs; the spec describes a DN simply as a comma-separated
sequence of relative DNs, so parsing always succeeds in this model.) -/
def dnParse (s : String) : Option (List String) :=
  some (splitOnCharStr ',' s)

/-- Three-way comparison of strings derived from the lexicographic order. -/
def strCmpOrd (a b : String) : Ordering :=
  if a = b then Ordering.eq
  else if strLe a b then Ordering.lt else Ordering.gt

/-- Lexicographic three-way comparison of component lists (shorter prefixes
compare less, as for Rust `Vec`'s derived `Ord`). -/
def listCmpStr : List String → List String → Ordering
  | [], [] => Ordering.eq
  | [], _ :: _ => Ordering.lt
  | _ :: _, [] => Ordering.gt
  | x :: xs, y :: ys =>
    match strCmpOrd x y with
    | Ordering.eq => listCmpStr xs ys
    | o => o

/-- Modelled from the spec: the `Ord` instance of
`ldap_types::basic::DistinguishedName` — DNs are ordered by
reverse-component lexicographic order, so that of two DNs of which one is
an ancestor of the other the ancestor compares less (spec section 3,
"roots compare least"). -/
def dnCompare (d1 d2 : List String) : Ordering :=
  listCmpStr d1.reverse d2.reverse

/-- Embedding of `LDAPOperation::operation_apply_cmp`: `Add`/`Add` and
`Delete`/`Delete` pairs are compared by parsing both DNs and comparing the
parsed DNs (the same `DistinguishedName::cmp` in both arms); every other
pair is incomparable (`None`). -/
def operation_apply_cmp (o1 o2 : LDAPOperation) : Option Ordering :=
  match o1, o2 with
  | LDAPOperation.add entry1, LDAPOperation.add entry2 =>
    match dnParse entry1.dn, dnParse entry2.dn with
    | some parsed_dn1, some parsed_dn2 => some (dnCompare parsed_dn1 parsed_dn2)
    | _, _ => none
  | LDAPOperation.delete dn1, LDAPOperation.delete dn2 =>
    match dnParse dn1, dnParse dn2 with
    | some parsed_dn1, some parsed_dn2 => some (dnCompare parsed_dn1 parsed_dn2)
    | _, _ => none
  | _, _ => none

/-- The boolean comparison handed to the sort:
`a.operation_apply_cmp(b).unwrap_or(Ordering::Equal)` is not `Greater`. -/
def opLe (a b : LDAPOperation) : Bool :=
  decide (((operation_apply_cmp a b).getD Ordering.eq) ≠ Ordering.gt)

/-- Stable insertion of one operation into a sorted run (helper for the
model of `Vec::sort_by`). -/
def sortInsert (le : LDAPOperation → LDAPOperation → Bool) (x : LDAPOperation) :
    List LDAPOperation → List LDAPOperation
  | [] => [x]
  | y :: ys => if le x y then x :: y :: ys else y :: sortInsert le x ys

/-- Model of `ldap_operations.sort_by(|a, b| a.operation_apply_cmp(b)
.unwrap_or(Equal))`: a stable sort under `opLe`.  Rust's stable sort and
this insertion sort agree on every list over which the comparator is a
total preorder; where the comparator is inconsistent Rust documents the
resulting order as unspecified. -/
def sortOperations (ops : List LDAPOperation) : List LDAPOperation :=
  ops.foldr (sortInsert opLe) []

/-- Embedding of `mods_as_bin_mods`: transform textual modifications to
binary modifications (keys and values byte-encoded) so both kinds can be
applied in one modify operation. -/
def mods_as_bin_mods (mods : List (LMod String)) : List (LMod (List Nat)) :=
  mods.map (fun m =>
    match m with
    | LMod.add k v => LMod.add (strToBytes k) (v.map strToBytes)
    | LMod.delete k v => LMod.delete (strToBytes k) (v.map strToBytes)
    | LMod.replace k v => LMod.replace (strToBytes k) (v.map strToBytes)
    | LMod.increment k v => LMod.increment (strToBytes k) (strToBytes v))

/-- A protocol request issued against the destination server by
`apply_ldap_operations` (the observable effect of the applier; the
destination state after the run is a function of the issued requests). -/
inductive LDAPRequest where
  | add (full_dn : String) (combined_attrs : List (List Nat × List (List Nat)))
  | deleteRecursive (full_dn : String)
  | modify (full_dn : String) (combined_mods : List (LMod (List Nat)))
deriving DecidableEq

/-- Embedding of `apply_ldap_operations`: the sequence of requests issued
for an operation list.  `Add` merges binary and textual attributes into
one byte-valued attribute list; `Delete` issues the external
`delete_recursive` on the full DN; `Modify` issues the binary mods
followed by the byte-encoded textual mods. -/
def apply_ldap_operations (ldap_base_dn : String)
    (ldap_operations : List LDAPOperation) : List LDAPRequest :=
  ldap_operations.map (fun op =>
    match op with
    | LDAPOperation.add entry =>
      let full_dn := entry.dn ++ "," ++ ldap_base_dn
      let combined_attrs :=
        (entry.bin_attrs.map (fun p => (strToBytes p.1, p.2.dedup))) ++
          (entry.attrs.map (fun p => (strToBytes p.1, (p.2.map strToBytes).dedup)))
      LDAPRequest.add full_dn combined_attrs
    | LDAPOperation.delete dn => LDAPRequest.deleteRecursive (dn ++ "," ++ ldap_base_dn)
    | LDAPOperation.modify dn mods bin_mods =>
      LDAPRequest.modify (dn ++ "," ++ ldap_base_dn)
        (bin_mods ++ mods_as_bin_mods mods))

/-- The plan-then-apply tail of `do_sync` (lines 631-816): compute the
operation plan from the two populated stores, sort it, and issue the
requests against the destination unless `dry_run` is set.  Returns the
sorted plan together with the issued requests. -/
def do_sync_plan (options : Options) (schema : LDAPSchema)
    (source_base_dn destination_base_dn : String)
    (source_entries destination_entries : List (String × LDAPEntry)) :
    List LDAPOperation × List LDAPRequest :=
  let ldap_operations := sortOperations
    (buildOperations options schema source_base_dn destination_base_dn
      source_entries destination_entries)
  (ldap_operations,
    if !options.dry_run then
      apply_ldap_operations destination_base_dn ldap_operations
    else [])

/-! ## Concrete fixtures used by witnesses and counterexamples -/

/-- A schema answering no syntax and no equality rule for any attribute. -/
def emptySchema : LDAPSchema := ⟨fun _ => none, fun _ => none⟩

/-- Source store fixture for the C10 witness. -/
def seC10 : List (String × LDAPEntry) :=
  [("cn=b", ⟨"cn=b", [("sn", ["b"])], [("photo", [[1]])]⟩),
   ("cn=a", ⟨"cn=a", [("cn", ["a"]), ("sn", ["x"])], [("cert", [[2]])]⟩)]

/-- Destination store fixture for the C10 witness. -/
def deC10 : List (String × LDAPEntry) :=
  [("cn=a", ⟨"cn=a", [("cn", ["a"])], []⟩)]

/-- Source store fixture for the C2 witness (`sn` exists only at the
source). -/
def seC2 : List (String × LDAPEntry) :=
  [("cn=a", ⟨"cn=a", [("cn", ["a"]), ("sn", ["x"])], []⟩)]

/-- Destination store fixture for the C2 witness. -/
def deC2 : List (String × LDAPEntry) :=
  [("cn=a", ⟨"cn=a", [("cn", ["a"])], []⟩)]

/-- The entry diff computed for the C2 witness scenario. -/
def chC2 : LDAPEntryDiff :=
  ldapEntryDiff ⟨"cn=a", [("cn", ["a"]), ("sn", ["x"])], []⟩
    ⟨"cn=a", [("cn", ["a"])], []⟩

/-! ## C3 -/

/-- Schema fixture for the C3 counterexample: `member` has DN syntax and a
case-insensitive equality rule (as `distinguishedNameMatch` is). -/
def dnSchemaC3 : LDAPSchema :=
  ⟨fun a => if a = "member" then some dnOID else none,
   fun a => if a = "member" then some ⟨true⟩ else none⟩

/-- Schema fixture for the C3 witness: `mail` has no declared syntax and a
case-insensitive equality rule. -/
def ciSchemaC3 : LDAPSchema :=
  ⟨fun _ => none, fun a => if a = "mail" then some ⟨true⟩ else none⟩

/-! ## Mod shape lemmas -/

/-- The attribute a modification refers to. -/
def modAttr {α : Type} : LMod α → α
  | LMod.add a _ => a
  | LMod.delete a _ => a
  | LMod.replace a _ => a
  | LMod.increment a _ => a

/-- The kind tag of a modification (Add/Delete/Replace/Increment). -/
def modKind {α : Type} : LMod α → Nat
  | LMod.add _ _ => 0
  | LMod.delete _ _ => 1
  | LMod.replace _ _ => 2
  | LMod.increment _ _ => 3

/-! ## C5 -/

/-- Schema fixture for the C5 counterexample and witness: `member` has DN
syntax. -/
def dnSchemaC5 : LDAPSchema :=
  ⟨fun a => if a = "member" then some dnOID else none, fun _ => none⟩

/-- The Add operation emitted in the C5 scenario. -/
def opC5 : LDAPOperation :=
  LDAPOperation.add ⟨"cn=g", [("member", ["cn=u,dc=a,dc=b"])], []⟩

/-- The C7 property of a single operation: no mod and no attribute of an
Add entry refers to an ignored attribute name, and no Add entry's
`objectClass` values contain an ignored object class. -/
def opRespectsIgnores (options : Options) : LDAPOperation → Bool
  | LDAPOperation.add e =>
    (e.attrs.all (fun p => decide (p.1 ∉ options.ignore_attributes) &&
      (if p.1 = "objectClass" then
        p.2.all (fun v => decide (v ∉ options.ignore_object_classes))
      else true))) &&
    (e.bin_attrs.all (fun p => decide (p.1 ∉ options.ignore_attributes)))
  | LDAPOperation.delete _ => true
  | LDAPOperation.modify _ mods bins =>
    (mods.all (fun m => decide (modAttr m ∉ options.ignore_attributes))) &&
    (bins.all (fun m =>
      options.ignore_attributes.all (fun ia => decide (strToBytes ia ≠ modAttr m))))

/-- Source store fixture for the C8 witness: one entry with a differing
textual attribute and no binary attributes. -/
def seC8 : List (String × LDAPEntry) :=
  [("cn=b", ⟨"cn=b", [("cn", ["b"]), ("sn", ["x"])], []⟩)]

/-- Destination store fixture for the C8 witness: the same DN with a
differing `sn` and a destination-only binary attribute. -/
def deC8 : List (String × LDAPEntry) :=
  [("cn=b", ⟨"cn=b", [("cn", ["b"]), ("sn", ["y"])], [("photo", [[1]])]⟩)]

/-- Options fixture for the C8 witness: updating enabled, nothing
ignored. -/
def optC8 : Options := ⟨false, false, true, false, [], [], [], false⟩

/-- Schema fixture for the C7 counterexample: `objectClass` is declared
with DN syntax. -/
def schC7 : LDAPSchema :=
  ⟨fun a => if a = "objectClass" then some dnOID else none, fun _ => none⟩

/-- Source store fixture for the C7 counterexample: one source-only entry
whose `objectClass` value `x,dc=s` is not ignored, but whose base-DN
rewrite `x,dc=d` is. -/
def seC7 : List (String × LDAPEntry) :=
  [("cn=u", ⟨"cn=u,dc=s", [("objectClass", ["x,dc=s"])], []⟩)]

/-- Options fixture for the C7 counterexample: adding enabled and the
object class `x,dc=d` ignored. -/
def optC7 : Options := ⟨false, true, false, false, [], ["x,dc=d"], [], false⟩

theorem lookupA_isSome_of_mem {β : Type} {k : String} {v : β} :
    ∀ {l : List (String × β)}, (k, v) ∈ l → (lookupA k l).isSome := by
  intro l
  induction l with
  | nil => intro h; cases h
  | cons p rest ih =>
    intro h
    rcases List.mem_cons.mp h with h | h
    · cases h; simp [lookupA]
    · by_cases hk : k = p.1
      · simp [lookupA, hk]
      · simpa [lookupA, hk] using ih h

theorem lookupA_mem {β : Type} {k : String} {v : β} :
    ∀ {l : List (String × β)}, lookupA k l = some v → (k, v) ∈ l := by
  intro l
  induction l with
  | nil => intro h; cases h
  | cons p rest ih =>
    intro h
    by_cases hk : k = p.1
    · simp [lookupA, hk] at h
      subst hk; subst h
      exact List.mem_cons_self _ _
    · simp [lookupA, hk] at h
      exact List.mem_cons_of_mem _ (ih h)

theorem lookupA_of_mem_nodup {β : Type} {k : String} {v : β} :
    ∀ {l : List (String × β)}, (l.map Prod.fst).Nodup → (k, v) ∈ l →
      lookupA k l = some v := by
  intro l
  induction l with
  | nil => intro _ h; cases h
  | cons p rest ih =>
    intro hnd h
    rcases List.mem_cons.mp h with h | h
    · cases h; simp [lookupA]
    · rw [List.map_cons, List.nodup_cons] at hnd
      have hk : k ≠ p.1 := by
        intro hke
        apply hnd.1
        rw [← hke]
        exact List.mem_map.mpr ⟨(k, v), h, rfl⟩
      simpa [lookupA, hk] using ih hnd.2 h

/-! ## Structural lemmas about the diff model -/

theorem mem_hashMapDiff_removed {σ ρ : Type} [DecidableEq σ] {dv : σ → σ → ρ}
    {idv : σ → ρ} {a b : List (String × σ)} {k : String} :
    k ∈ (hashMapDiff dv idv a b).removed ↔
      (∃ v, (k, v) ∈ a) ∧ lookupA k b = none := by
  unfold hashMapDiff
  simp only [List.mem_filterMap]
  constructor
  · rintro ⟨⟨k1, v⟩, hp, hf⟩
    by_cases hl : (lookupA k1 b).isSome
    · simp [hl] at hf
    · simp [hl] at hf
      subst hf
      exact ⟨⟨v, hp⟩, Option.not_isSome_iff_eq_none.mp hl⟩
  · rintro ⟨⟨v, hv⟩, hl⟩
    exact ⟨(k, v), hv, by simp [hl]⟩

theorem mem_hashMapDiff_altered {σ ρ : Type} [DecidableEq σ] {dv : σ → σ → ρ}
    {idv : σ → ρ} {a b : List (String × σ)} {k : String} {r : ρ} :
    (k, r) ∈ (hashMapDiff dv idv a b).altered ↔
      (∃ v w, (k, v) ∈ a ∧ lookupA k b = some w ∧ v ≠ w ∧ r = dv v w) ∨
      (∃ w, (k, w) ∈ b ∧ lookupA k a = none ∧ r = idv w) := by
  unfold hashMapDiff
  simp only [List.mem_append, List.mem_filterMap]
  constructor
  · rintro (⟨⟨k1, v⟩, hp, hf⟩ | ⟨⟨k1, w⟩, hq, hf⟩)
    · cases hlook : lookupA k1 b with
      | none => simp [hlook] at hf
      | some w =>
        rw [hlook] at hf
        by_cases hvw : v = w
        · simp [hvw] at hf
        · simp [hvw] at hf
          obtain ⟨hk, hr⟩ := hf
          subst hk
          exact Or.inl ⟨v, w, hp, hlook, hvw, hr.symm⟩
    · by_cases hl : (lookupA k1 a).isSome
      · simp [hl] at hf
      · simp [hl] at hf
        obtain ⟨hk, hr⟩ := hf
        subst hk
        exact Or.inr ⟨w, hq, Option.not_isSome_iff_eq_none.mp hl, hr.symm⟩
  · rintro (⟨v, w, hp, hlook, hvw, hr⟩ | ⟨w, hq, hl, hr⟩)
    · exact Or.inl ⟨(k, v), hp, by simp [hlook, hvw, hr]⟩
    · exact Or.inr ⟨(k, w), hq, by simp [hl, hr]⟩

theorem hashMapDiff_removed_not_altered {σ ρ : Type} [DecidableEq σ]
    {dv : σ → σ → ρ} {idv : σ → ρ} {a b : List (String × σ)} {k : String} :
    k ∈ (hashMapDiff dv idv a b).removed →
      ∀ r, (k, r) ∉ (hashMapDiff dv idv a b).altered := by
  intro hrem r halt
  obtain ⟨⟨v, hv⟩, hnone⟩ := mem_hashMapDiff_removed.mp hrem
  rcases mem_hashMapDiff_altered.mp halt with ⟨v', w, _, hlook, _, _⟩ | ⟨w, _, hl, _⟩
  · rw [hnone] at hlook; cases hlook
  · have := lookupA_isSome_of_mem hv
    rw [hl] at this; cases this

/-- Keys of a filterMap that preserves first components form a sublist of
the original keys. -/
theorem filterMap_keys_sublist {σ ρ : Type} {f : (String × σ) → Option (String × ρ)}
    (hf : ∀ p r, f p = some r → r.1 = p.1) (a : List (String × σ)) :
    ((a.filterMap f).map Prod.fst).Sublist (a.map Prod.fst) := by
  induction a with
  | nil => simp
  | cons p rest ih =>
    cases hfp : f p with
    | none => simpa [List.filterMap_cons, hfp] using ih.cons p.1
    | some r =>
      have : r.1 = p.1 := hf p r hfp
      simpa [List.filterMap_cons, hfp, this] using ih.cons₂ p.1

theorem hashMapDiff_removed_nodup {σ ρ : Type} [DecidableEq σ] {dv : σ → σ → ρ}
    {idv : σ → ρ} (a b : List (String × σ)) (ha : (a.map Prod.fst).Nodup) :
    (hashMapDiff dv idv a b).removed.Nodup := by
  unfold hashMapDiff
  refine List.Sublist.nodup ?_ ha
  clear ha
  induction a with
  | nil => simp
  | cons p rest ih =>
    by_cases hl : (lookupA p.1 b).isSome
    · simpa [List.filterMap_cons, hl] using ih.cons p.1
    · simpa [List.filterMap_cons, hl] using ih.cons₂ p.1

theorem hashMapDiff_altered_keys_nodup {σ ρ : Type} [DecidableEq σ]
    {dv : σ → σ → ρ} {idv : σ → ρ} {a b : List (String × σ)}
    (ha : (a.map Prod.fst).Nodup) (hb : (b.map Prod.fst).Nodup) :
    (((hashMapDiff dv idv a b).altered).map Prod.fst).Nodup := by
  unfold hashMapDiff
  rw [List.map_append]
  refine List.Nodup.append ?_ ?_ ?_
  · refine List.Sublist.nodup ?_ ha
    refine filterMap_keys_sublist ?_ a
    intro p r hf
    cases hlook : lookupA p.1 b with
    | none => rw [hlook] at hf; cases hf
    | some w =>
      rw [hlook] at hf
      by_cases hvw : p.2 = w
      · simp [hvw] at hf
      · simp only [hvw, if_neg, ite_false, Option.some.injEq] at hf
        rw [← hf]
  · refine List.Sublist.nodup ?_ hb
    refine filterMap_keys_sublist ?_ b
    intro p r hf
    by_cases hl : (lookupA p.1 a).isSome
    · simp [hl] at hf
    · simp only [hl] at hf
      simp at hf
      cases hf
      rfl
  · intro k hk1 hk2
    rw [List.mem_map] at hk1 hk2
    obtain ⟨x1, hx1mem, hfst1⟩ := hk1
    obtain ⟨x2, hx2mem, hfst2⟩ := hk2
    obtain ⟨p, hp, hfp⟩ := List.mem_filterMap.mp hx1mem
    obtain ⟨q, hq, hfq⟩ := List.mem_filterMap.mp hx2mem
    have hx1fst : x1.1 = p.1 := by
      cases hlook : lookupA p.1 b with
      | none => rw [hlook] at hfp; cases hfp
      | some w =>
        rw [hlook] at hfp
        by_cases hvw : p.2 = w
        · simp [hvw] at hfp
        · simp only [hvw, if_neg, ite_false, Option.some.injEq] at hfp
          rw [← hfp]
    have hqa : lookupA q.1 a = none := by
      by_cases hl : (lookupA q.1 a).isSome
      · simp [hl] at hfq
      · exact Option.not_isSome_iff_eq_none.mp hl
    have hx2fst : x2.1 = q.1 := by
      rw [hqa] at hfq
      simp at hfq
      cases hfq
      rfl
    have hkp : k = p.1 := by rw [← hfst1, hx1fst]
    have hkq : k = q.1 := by rw [← hfst2, hx2fst]
    have : (lookupA q.1 a).isSome := by
      rw [← hkq, hkp]
      exact lookupA_isSome_of_mem hp
    rw [hqa] at this
    cases this

/-! ## Plan membership lemmas -/

theorem mem_handleAltered {options : Options} {schema : LDAPSchema}
    {sb db : String} {se de : List (String × LDAPEntry)}
    {p : String × LDAPEntryDiff} {op : LDAPOperation}
    (h : op ∈ handleAltered options schema sb db se de p) :
    (∃ source_entry, lookupA p.1 se = some source_entry ∧
      options.update = true ∧
      op = LDAPOperation.modify source_entry.dn
        (entryTextMods options schema sb db source_entry (lookupA p.1 de) p.2)
        (entryBinMods options source_entry p.2) ∧
      ¬(entryTextMods options schema sb db source_entry (lookupA p.1 de) p.2 = [] ∧
        entryBinMods options source_entry p.2 = [])) ∨
    (lookupA p.1 se = none ∧ options.delete = true ∧
      op = LDAPOperation.delete p.1) := by
  unfold handleAltered at h
  cases hlook : lookupA p.1 se with
  | some source_entry =>
    rw [hlook] at h
    simp only [] at h
    by_cases hguard : (options.update &&
        !((entryTextMods options schema sb db source_entry (lookupA p.1 de) p.2).isEmpty &&
          (entryBinMods options source_entry p.2).isEmpty)) = true
    · rw [if_pos hguard] at h
      rw [List.mem_singleton] at h
      rw [Bool.and_eq_true, Bool.not_eq_true', Bool.and_eq_false_iff] at hguard
      refine Or.inl ⟨source_entry, rfl, hguard.1, h, ?_⟩
      rintro ⟨h1, h2⟩
      rcases hguard.2 with hg | hg
      · rw [h1] at hg; simp at hg
      · rw [h2] at hg; simp at hg
    · rw [if_neg hguard] at h
      cases h
  | none =>
    rw [hlook] at h
    by_cases hdel : options.delete = true
    · rw [if_pos hdel] at h
      rw [List.mem_singleton] at h
      exact Or.inr ⟨rfl, hdel, h⟩
    · rw [if_neg hdel] at h
      cases h

theorem mem_buildOperations {options : Options} {schema : LDAPSchema}
    {sb db : String} {se de : List (String × LDAPEntry)} {op : LDAPOperation}
    (h : op ∈ buildOperations options schema sb db se de) :
    (∃ p ∈ (entriesDiff se de).altered,
      op ∈ handleAltered options schema sb db se de p) ∨
    (options.add = true ∧ ∃ dn ∈ (entriesDiff se de).removed,
      op = LDAPOperation.add (removedEntryToAdd options schema sb db
        ((lookupA dn se).getD identityEntry))) := by
  unfold buildOperations at h
  rw [List.mem_append] at h
  rcases h with h | h
  · exact Or.inl (List.mem_flatMap.mp h)
  · obtain ⟨dn, hdn, hf⟩ := List.mem_filterMap.mp h
    by_cases hadd : options.add = true
    · rw [if_pos hadd] at hf
      cases hf
      exact Or.inr ⟨hadd, dn, hdn, rfl⟩
    · rw [if_neg hadd] at hf
      cases hf

/-! ## C1 -/

/-- C1 (codebase evaluation): the claim says that in the sorted plan a
`Delete` of a child precedes the `Delete` of its ancestor.  The code
compares `Delete`/`Delete` pairs with the same ascending `DistinguishedName`
order as `Add`/`Add` pairs (`operation_apply_cmp`, both arms call
`parsed_dn1.cmp(&parsed_dn2)`), under which an ancestor compares less, so
the sorted plan for a destination-only subtree deletes the parent
`ou=old` before its child `cn=z,ou=old` — contradicting the claim and the
comparator's own doc comment ("children deleted first"). -/
theorem sorted_plan_deletes_parent_first :
    sortOperations (buildOperations ⟨false, false, false, true, [], [], [], false⟩
        emptySchema "dc=s" "dc=d" []
        [("cn=z,ou=old", ⟨"cn=z,ou=old", [], []⟩), ("ou=old", ⟨"ou=old", [], []⟩)]) =
      [LDAPOperation.delete "ou=old", LDAPOperation.delete "cn=z,ou=old"] := by
  decide

/-! ## C4 -/

theorem stripSuffixStr_sound {s suf r : String}
    (h : stripSuffixStr s suf = some r) : r ++ suf = s := by
  unfold stripSuffixStr at h
  by_cases h1 : s.data.length < suf.data.length
  · rw [if_pos h1] at h
    cases h
  · by_cases h2 : s.data.drop (s.data.length - suf.data.length) = suf.data
    · rw [if_neg h1, if_pos h2] at h
      cases h
      apply String.ext
      rw [String.data_append]
      show s.data.take (s.data.length - suf.data.length) ++ suf.data = s.data
      have h3 := List.take_append_drop (s.data.length - suf.data.length) s.data
      rw [h2] at h3
      exact h3
    · rw [if_neg h1, if_neg h2] at h
      cases h

theorem mem_hmInsert {β : Type} {m : List (String × β)} {k : String} {v : β}
    {p : String × β} (h : p ∈ hmInsert m k v) : p ∈ m ∨ p = (k, v) := by
  unfold hmInsert at h
  by_cases hl : (lookupA k m).isSome
  · rw [if_pos hl] at h
    obtain ⟨q, hq, hf⟩ := List.mem_map.mp h
    by_cases hqk : q.1 = k
    · rw [if_pos hqk] at hf
      exact Or.inr hf.symm
    · rw [if_neg hqk] at hf
      cases hf
      exact Or.inl hq
  · rw [if_neg hl] at h
    rcases List.mem_append.mp h with h | h
    · exact Or.inl h
    · rw [List.mem_singleton] at h
      exact Or.inr h

/-- C4: every entry that `search_entries` stores either was already in the
store, or comes from a server-returned entry whose DN ends in
`"," ++ base_dn`; for such entries the stored key concatenated with
`"," ++ base_dn` equals the original returned DN, and the stored entry is
re-labelled with the stripped relative DN.  Returned entries whose DN does
not end in the suffix fail `strip_suffix` and are never stored. -/
theorem search_entries_suffix_strip (base_dn : String) (found : List RawEntry)
    (init : List (String × LDAPEntry)) :
    ∀ k e, (k, e) ∈ search_entries base_dn found init →
      (k, e) ∈ init ∨
        ∃ raw ∈ found, stripSuffixStr raw.dn ("," ++ base_dn) = some k ∧
          k ++ ("," ++ base_dn) = raw.dn ∧
          e = { dn := k, attrs := raw.attrs, bin_attrs := raw.bin_attrs } := by
  induction found generalizing init with
  | nil =>
    intro k e h
    exact Or.inl h
  | cons raw rest ih =>
    intro k e h
    have hstep : search_entries base_dn (raw :: rest) init =
        search_entries base_dn rest
          (match stripSuffixStr raw.dn ("," ++ base_dn) with
           | some s => hmInsert init s { dn := s, attrs := raw.attrs, bin_attrs := raw.bin_attrs }
           | none => init) := by
      unfold search_entries
      rfl
    rw [hstep] at h
    cases hsuf : stripSuffixStr raw.dn ("," ++ base_dn) with
    | some s =>
      rw [hsuf] at h
      rcases ih _ k e h with hin | ⟨raw', hraw', hs', hc', he'⟩
      · rcases mem_hmInsert hin with hin | hkv
        · exact Or.inl hin
        · rw [Prod.mk.injEq] at hkv
          obtain ⟨hk, he⟩ := hkv
          subst hk
          refine Or.inr ⟨raw, List.mem_cons_self _ _, ?_, ?_, by rw [he]⟩
          · rw [hsuf]
          · exact stripSuffixStr_sound (by rw [hsuf])
      · exact Or.inr ⟨raw', List.mem_cons_of_mem _ hraw', hs', hc', he'⟩
    | none =>
      rw [hsuf] at h
      rcases ih _ k e h with hin | ⟨raw', hraw', hs', hc', he'⟩
      · exact Or.inl hin
      · exact Or.inr ⟨raw', List.mem_cons_of_mem _ hraw', hs', hc', he'⟩

/-- Witness for C4 at a concrete input: the store built from one matching
and one non-matching returned entry contains the stripped key, and the
theorem's disjunction holds for it. -/
theorem search_entries_suffix_strip_witness :
    (("cn=a", ({ dn := "cn=a", attrs := [], bin_attrs := [] } : LDAPEntry)) ∈
        search_entries "dc=x" [⟨"cn=a,dc=x", [], []⟩, ⟨"cn=bad,dc=y", [], []⟩] []) ∧
      ((("cn=a", ({ dn := "cn=a", attrs := [], bin_attrs := [] } : LDAPEntry)) ∈
          ([] : List (String × LDAPEntry))) ∨
        ∃ raw ∈ [(⟨"cn=a,dc=x", [], []⟩ : RawEntry), ⟨"cn=bad,dc=y", [], []⟩],
          stripSuffixStr raw.dn ("," ++ "dc=x") = some "cn=a" ∧
          "cn=a" ++ ("," ++ "dc=x") = raw.dn ∧
          ({ dn := "cn=a", attrs := [], bin_attrs := [] } : LDAPEntry) =
            { dn := "cn=a", attrs := raw.attrs, bin_attrs := raw.bin_attrs }) :=
  ⟨by decide,
   search_entries_suffix_strip "dc=x" [⟨"cn=a,dc=x", [], []⟩, ⟨"cn=bad,dc=y", [], []⟩] []
     "cn=a" { dn := "cn=a", attrs := [], bin_attrs := [] } (by decide)⟩

/-! ## C9 -/

/-- C9: when the `dry_run` flag is set, the full operation plan is still
computed and sorted, but `apply_ldap_operations` is never invoked: no
request at all is issued against the destination server, so the
destination state — a function of the issued requests — is unchanged by
the run. -/
theorem dry_run_issues_no_requests (options : Options) (schema : LDAPSchema)
    (source_base_dn destination_base_dn : String)
    (se de : List (String × LDAPEntry)) (h : options.dry_run = true) :
    (do_sync_plan options schema source_base_dn destination_base_dn se de).2 = [] ∧
      (do_sync_plan options schema source_base_dn destination_base_dn se de).1 =
        sortOperations (buildOperations options schema source_base_dn
          destination_base_dn se de) := by
  unfold do_sync_plan
  rw [h]
  exact ⟨rfl, rfl⟩

/-- Witness for C9 at a concrete input: a dry run over a store that would
otherwise produce two deletes issues no request while its computed plan is
the sorted delete list. -/
theorem dry_run_issues_no_requests_witness :
    (Options.dry_run ⟨true, false, false, true, [], [], [], false⟩ = true) ∧
      ((do_sync_plan ⟨true, false, false, true, [], [], [], false⟩ emptySchema "dc=s" "dc=d" []
          [("cn=z,ou=old", ⟨"cn=z,ou=old", [], []⟩), ("ou=old", ⟨"ou=old", [], []⟩)]).2 = [] ∧
        (do_sync_plan ⟨true, false, false, true, [], [], [], false⟩ emptySchema "dc=s" "dc=d" []
            [("cn=z,ou=old", ⟨"cn=z,ou=old", [], []⟩), ("ou=old", ⟨"ou=old", [], []⟩)]).1 =
          sortOperations (buildOperations ⟨true, false, false, true, [], [], [], false⟩
            emptySchema "dc=s" "dc=d" []
            [("cn=z,ou=old", ⟨"cn=z,ou=old", [], []⟩), ("ou=old", ⟨"ou=old", [], []⟩)])) :=
  ⟨by decide,
   dry_run_issues_no_requests ⟨true, false, false, true, [], [], [], false⟩ emptySchema
     "dc=s" "dc=d" []
     [("cn=z,ou=old", ⟨"cn=z,ou=old", [], []⟩), ("ou=old", ⟨"ou=old", [], []⟩)] (by decide)⟩

/-! ## C6 -/

/-- C6: a `Modify` operation appears in the plan only when the update flag
is enabled and at least one textual or binary mod survived the
per-attribute diff; no emitted `Modify` has an empty combined mod list. -/
theorem modify_requires_update_and_mods (options : Options) (schema : LDAPSchema)
    (sb db : String) (se de : List (String × LDAPEntry)) :
    ∀ op ∈ buildOperations options schema sb db se de, ∀ dn mods bins,
      op = LDAPOperation.modify dn mods bins →
      options.update = true ∧ ¬(mods = [] ∧ bins = []) := by
  intro op hop dn mods bins heq
  rcases mem_buildOperations hop with ⟨p, _, hmem⟩ | ⟨_, dn', _, heq'⟩
  · rcases mem_handleAltered hmem with ⟨e1, _, hupd, heqop, hne⟩ | ⟨_, _, heqop⟩
    · rw [heq] at heqop
      injection heqop with _ hmods hbins
      refine ⟨hupd, ?_⟩
      rintro ⟨h1, h2⟩
      exact hne ⟨by rw [← hmods, h1], by rw [← hbins, h2]⟩
    · rw [heq] at heqop
      cases heqop
  · rw [heq] at heq'
    cases heq'

/-- Witness for C6 at a concrete input: the single `Modify` produced for an
entry whose destination carries an extra `mail` attribute satisfies the
update-flag and non-empty-mods conclusion. -/
theorem modify_requires_update_and_mods_witness :
    ((LDAPOperation.modify "cn=a" [LMod.delete "mail" []] []) ∈
        buildOperations ⟨false, false, true, false, [], [], [], false⟩ emptySchema
          "dc=s" "dc=d" [("cn=a", ⟨"cn=a", [("cn", ["a"])], []⟩)]
          [("cn=a", ⟨"cn=a", [("cn", ["a"]), ("mail", ["x@y"])], []⟩)]) ∧
      ((⟨false, false, true, false, [], [], [], false⟩ : Options).update = true ∧
        ¬(([LMod.delete "mail" []] : List (LMod String)) = [] ∧
          ([] : List (LMod (List Nat))) = [])) :=
  ⟨by decide,
   modify_requires_update_and_mods ⟨false, false, true, false, [], [], [], false⟩ emptySchema
     "dc=s" "dc=d" [("cn=a", ⟨"cn=a", [("cn", ["a"])], []⟩)]
     [("cn=a", ⟨"cn=a", [("cn", ["a"]), ("mail", ["x@y"])], []⟩)]
     (LDAPOperation.modify "cn=a" [LMod.delete "mail" []] []) (by decide)
     "cn=a" [LMod.delete "mail" []] [] rfl⟩

/-! ## C10 -/

/-- C10: the direct map indexing performed while building the plan never
panics.  Every DN in `diff.removed` is a key of `source_entries`, and for
every altered DN whose change was computed against the source entry found
by lookup, every attribute name in `change.attrs.removed` is a key of that
entry's `attrs` map and every name in `change.bin_attrs.removed` is a key
of its `bin_attrs` map — because the diff of source against destination
puts into `removed` exactly keys present on the source side. -/
theorem diff_removed_indexing_safe (se de : List (String × LDAPEntry))
    (hnd : (se.map Prod.fst).Nodup) :
    (∀ dn ∈ (entriesDiff se de).removed, (lookupA dn se).isSome = true) ∧
      (∀ p ∈ (entriesDiff se de).altered,
        ∀ e, lookupA (p : String × LDAPEntryDiff).1 se = some e →
          (∀ attr ∈ p.2.attrs.removed, (lookupA attr e.attrs).isSome = true) ∧
          (∀ attr ∈ p.2.bin_attrs.removed, (lookupA attr e.bin_attrs).isSome = true)) := by
  constructor
  · intro dn hdn
    obtain ⟨⟨v, hv⟩, _⟩ := mem_hashMapDiff_removed.mp hdn
    exact lookupA_isSome_of_mem hv
  · rintro ⟨dnK, ch⟩ hp e he
    rcases mem_hashMapDiff_altered.mp hp with ⟨v, w, hv, hw, hvw, hch⟩ | ⟨w, _, hnone, _⟩
    · have hev : e = v := by
        have h2 := lookupA_of_mem_nodup hnd hv
        rw [he] at h2
        injection h2
      subst hev
      subst hch
      constructor
      · intro attr hattr
        obtain ⟨⟨vals, hvals⟩, _⟩ := mem_hashMapDiff_removed.mp (by exact hattr)
        exact lookupA_isSome_of_mem hvals
      · intro attr hattr
        obtain ⟨⟨vals, hvals⟩, _⟩ := mem_hashMapDiff_removed.mp (by exact hattr)
        exact lookupA_isSome_of_mem hvals
    · rw [hnone] at he
      cases he

/-- Witness for C10 at a concrete input: stores with a removed DN, a
removed textual attribute and a removed binary attribute, all present on
the source side. -/
theorem diff_removed_indexing_safe_witness :
    ((seC10.map Prod.fst).Nodup) ∧
      ((∀ dn ∈ (entriesDiff seC10 deC10).removed, (lookupA dn seC10).isSome = true) ∧
        (∀ p ∈ (entriesDiff seC10 deC10).altered,
          ∀ e, lookupA (p : String × LDAPEntryDiff).1 seC10 = some e →
            (∀ attr ∈ p.2.attrs.removed, (lookupA attr e.attrs).isSome = true) ∧
            (∀ attr ∈ p.2.bin_attrs.removed, (lookupA attr e.bin_attrs).isSome = true))) :=
  ⟨by decide, diff_removed_indexing_safe seC10 deC10 (by decide)⟩

/-! ## C2 -/

/-- C2 (counterexample): the claim reads the diff direction backwards.  For
an attribute (`mail`) that exists in the destination entry but not in the
source entry, the per-attribute diff records it in `altered` (diffed from
the identity value), not in `removed`, and the Differ emits
`Delete(mail, ∅)` via `mod_value` — not `Add(mail, source_values)` (the
source has no such values; the claimed `Add` never appears). -/
theorem dest_only_attr_emits_delete_not_add :
    (lookupA "mail" [("cn", ["a"])] = (none : Option (List String))) ∧
      (lookupA "mail" [("cn", ["a"]), ("mail", ["x@y"])] = some ["x@y"]) ∧
      buildOperations ⟨false, false, true, false, [], [], [], false⟩ emptySchema "dc=s" "dc=d"
          [("cn=a", ⟨"cn=a", [("cn", ["a"])], []⟩)]
          [("cn=a", ⟨"cn=a", [("cn", ["a"]), ("mail", ["x@y"])], []⟩)] =
        [LDAPOperation.modify "cn=a" [LMod.delete "mail" []] []] := by
  decide

/-- Helper for emitting the `Modify` of one altered entry: when the source
lookup succeeds, updating is enabled and the collected mod lists are not
both empty, `handleAltered` produces exactly that `Modify`. -/
theorem handleAltered_emits_modify {options : Options} {schema : LDAPSchema}
    {sb db : String} {se de : List (String × LDAPEntry)}
    {p : String × LDAPEntryDiff} {source_entry : LDAPEntry}
    (hsrc : lookupA p.1 se = some source_entry) (hupd : options.update = true)
    (hne : ¬(entryTextMods options schema sb db source_entry (lookupA p.1 de) p.2 = [] ∧
      entryBinMods options source_entry p.2 = [])) :
    LDAPOperation.modify source_entry.dn
        (entryTextMods options schema sb db source_entry (lookupA p.1 de) p.2)
        (entryBinMods options source_entry p.2) ∈
      handleAltered options schema sb db se de p := by
  unfold handleAltered
  rw [hsrc]
  show LDAPOperation.modify source_entry.dn
      (entryTextMods options schema sb db source_entry (lookupA p.1 de) p.2)
      (entryBinMods options source_entry p.2) ∈
    (if (options.update &&
        !((entryTextMods options schema sb db source_entry (lookupA p.1 de) p.2).isEmpty &&
          (entryBinMods options source_entry p.2).isEmpty)) = true then
      [LDAPOperation.modify source_entry.dn
        (entryTextMods options schema sb db source_entry (lookupA p.1 de) p.2)
        (entryBinMods options source_entry p.2)]
    else [])
  have hguard : (options.update &&
      !((entryTextMods options schema sb db source_entry (lookupA p.1 de) p.2).isEmpty &&
        (entryBinMods options source_entry p.2).isEmpty)) = true := by
    rw [hupd]
    rw [Bool.true_and, Bool.not_eq_true']
    rw [Bool.and_eq_false_iff]
    by_cases h1 : entryTextMods options schema sb db source_entry (lookupA p.1 de) p.2 = []
    · by_cases h2 : entryBinMods options source_entry p.2 = []
      · exact absurd ⟨h1, h2⟩ hne
      · exact Or.inr (by simpa [List.isEmpty_iff] using h2)
    · exact Or.inl (by simpa [List.isEmpty_iff] using h1)
  rw [if_pos hguard]
  exact List.mem_singleton.mpr rfl

/-- C2 (amended): a "removed" key of the per-attribute diff is an attribute
present on the source entry and absent from the destination entry (the
opposite direction from the claim's wording); for every such attribute not
listed in `ignore_attributes`, with updating enabled, the plan contains
the entry's `Modify` whose text mods include `Add(attr, source_values)`
after objectClass filtering and DN rewriting. -/
theorem removed_attr_key_emits_add (options : Options) (schema : LDAPSchema)
    (sb db : String) (se de : List (String × LDAPEntry))
    (hnd : (se.map Prod.fst).Nodup)
    (dnK : String) (ch : LDAPEntryDiff)
    (hp : (dnK, ch) ∈ (entriesDiff se de).altered)
    (source_entry : LDAPEntry) (hsrc : lookupA dnK se = some source_entry)
    (attr : String) (hattr : attr ∈ ch.attrs.removed)
    (hig : attr ∉ options.ignore_attributes) (hupd : options.update = true) :
    (lookupA attr source_entry.attrs).isSome = true ∧
      (∀ w, lookupA dnK de = some w → lookupA attr w.attrs = none) ∧
      LMod.add attr (removedAttrValues options schema sb db source_entry attr) ∈
        entryTextMods options schema sb db source_entry (lookupA dnK de) ch ∧
      LDAPOperation.modify source_entry.dn
          (entryTextMods options schema sb db source_entry (lookupA dnK de) ch)
          (entryBinMods options source_entry ch) ∈
        buildOperations options schema sb db se de := by
  rcases mem_hashMapDiff_altered.mp hp with ⟨v, w, hv, hw, hvw, hch⟩ | ⟨w, _, hnone, _⟩
  · have hev : v = source_entry := by
      have h2 := lookupA_of_mem_nodup hnd hv
      rw [hsrc] at h2
      injection h2 with h3
      exact h3.symm
    subst hev
    subst hch
    obtain ⟨⟨vals, hvals⟩, hwnone⟩ := mem_hashMapDiff_removed.mp hattr
    have hmem : LMod.add attr (removedAttrValues options schema sb db v attr) ∈
        entryTextMods options schema sb db v (lookupA dnK de) (ldapEntryDiff v w) := by
      unfold entryTextMods
      rw [List.mem_append]
      right
      unfold textRemovedMods
      rw [List.mem_filterMap]
      exact ⟨attr, hattr, by rw [if_neg hig]⟩
    refine ⟨lookupA_isSome_of_mem hvals, ?_, hmem, ?_⟩
    · intro w2 hw2
      rw [hw] at hw2
      injection hw2 with hww
      rw [← hww]
      exact hwnone
    · unfold buildOperations
      rw [List.mem_append]
      left
      rw [List.mem_flatMap]
      refine ⟨(dnK, ldapEntryDiff v w), hp, ?_⟩
      exact handleAltered_emits_modify hsrc hupd
        (fun hemp => by
          rw [hemp.1] at hmem
          cases hmem)
  · rw [hnone] at hsrc
    cases hsrc

/-- Witness for the amended C2 at a concrete input: the source-only
attribute `sn` is a removed key, and the emitted Modify carries
`Add(sn, source values)`. -/
theorem removed_attr_key_emits_add_witness :
    (lookupA "sn" (⟨"cn=a", [("cn", ["a"]), ("sn", ["x"])], []⟩ : LDAPEntry).attrs).isSome = true ∧
      (∀ w, lookupA "cn=a" deC2 = some w → lookupA "sn" w.attrs = none) ∧
      LMod.add "sn" (removedAttrValues ⟨false, false, true, false, [], [], [], false⟩
          emptySchema "dc=s" "dc=d" ⟨"cn=a", [("cn", ["a"]), ("sn", ["x"])], []⟩ "sn") ∈
        entryTextMods ⟨false, false, true, false, [], [], [], false⟩ emptySchema "dc=s" "dc=d"
          ⟨"cn=a", [("cn", ["a"]), ("sn", ["x"])], []⟩ (lookupA "cn=a" deC2) chC2 ∧
      LDAPOperation.modify
          (⟨"cn=a", [("cn", ["a"]), ("sn", ["x"])], []⟩ : LDAPEntry).dn
          (entryTextMods ⟨false, false, true, false, [], [], [], false⟩ emptySchema "dc=s" "dc=d"
            ⟨"cn=a", [("cn", ["a"]), ("sn", ["x"])], []⟩ (lookupA "cn=a" deC2) chC2)
          (entryBinMods ⟨false, false, true, false, [], [], [], false⟩
            ⟨"cn=a", [("cn", ["a"]), ("sn", ["x"])], []⟩ chC2) ∈
        buildOperations ⟨false, false, true, false, [], [], [], false⟩ emptySchema
          "dc=s" "dc=d" seC2 deC2 :=
  removed_attr_key_emits_add ⟨false, false, true, false, [], [], [], false⟩ emptySchema
    "dc=s" "dc=d" seC2 deC2 (by decide) "cn=a" chC2 (by decide)
    ⟨"cn=a", [("cn", ["a"]), ("sn", ["x"])], []⟩ (by decide) "sn" (by decide)
    (by decide) (by decide)

/-- C3 (counterexample): the source and destination values of `member`
differ only in case (their sorted lowercased forms coincide) and the
schema's equality rule for `member` is case-insensitive, yet `mod_value`
returns a `Replace`: because `member` has DN syntax, the comparison is
performed against the base-DN-rewritten replacement values
(`cn=u,dc=dst`), not against the source values, so the case-insensitive
short-circuit does not fire. -/
theorem case_insensitive_noop_fails_for_dn_syntax :
    (dnSchemaC3.eqOf "member" = some ⟨true⟩) ∧
      (List.insertionSort strLeRel (["cn=u,dc=src"].map strLower) =
        List.insertionSort strLeRel (["cn=u,DC=SRC"].map strLower)) ∧
      mod_value "member" ⟨"cn=g", [("member", ["cn=u,dc=src"])], []⟩ dnSchemaC3
          "dc=src" (some ⟨"cn=g", [("member", ["cn=u,DC=SRC"])], []⟩) "dc=dst"
          ⟨false, false, true, false, [], [], [], false⟩ =
        some (LMod.replace "member" ["cn=u,dc=dst"]) := by
  decide

/-- C3 (amended): for an attribute present on both entries whose source
values are pairwise distinct, that is not `objectClass` and whose schema
syntax is not the DN syntax (so the replacement values are exactly the
source values), if the source and destination value multisets differ only
in case (their lowercased multisets coincide) and the schema declares the
attribute's equality rule case-insensitive, then `mod_value` returns no
modification. -/
theorem mod_value_case_insensitive_noop
    (attr_name : String) (source_entry : LDAPEntry) (schema : LDAPSchema)
    (sb : String) (dest : LDAPEntry) (db : String) (options : Options)
    (svs dvs : List String)
    (hsv : lookupA attr_name source_entry.attrs = some svs)
    (hnodup : svs.Nodup)
    (hoc : attr_name ≠ "objectClass")
    (hsyn : ∀ s, schema.synOf attr_name = some s → s ≠ dnOID)
    (eqr : EqualityMatchingRule) (heq : schema.eqOf attr_name = some eqr)
    (hci : eqr.describes_case_insensitive_match = true)
    (hdv : lookupA attr_name dest.attrs = some dvs)
    (hperm : (svs.map strLower).Perm (dvs.map strLower)) :
    mod_value attr_name source_entry schema sb (some dest) db options = none := by
  have hrepl : replacementValues options schema sb db attr_name svs = sortedDedup svs := by
    unfold replacementValues
    cases hs : schema.synOf attr_name with
    | none => simp [hoc]
    | some s => simp [hoc, hsyn s hs]
  have hperm1 : (sortedDedup svs).Perm svs := by
    unfold sortedDedup
    rw [List.dedup_eq_self.mpr hnodup]
    exact List.perm_insertionSort strLeRel svs
  have hkey : List.insertionSort strLeRel ((List.insertionSort strLeRel dvs).map strLower) =
      List.insertionSort strLeRel
        ((replacementValues options schema sb db attr_name svs).map strLower) := by
    refine List.eq_of_perm_of_sorted ?_
      (List.sorted_insertionSort strLeRel _) (List.sorted_insertionSort strLeRel _)
    have p1 : ((List.insertionSort strLeRel dvs).map strLower).Perm (dvs.map strLower) :=
      (List.perm_insertionSort strLeRel dvs).map strLower
    have p2 : ((replacementValues options schema sb db attr_name svs).map strLower).Perm
        (svs.map strLower) := by
      rw [hrepl]
      exact hperm1.map strLower
    exact (List.perm_insertionSort strLeRel _).trans
      (p1.trans (hperm.symm.trans (p2.symm.trans
        (List.perm_insertionSort strLeRel _).symm)))
  unfold mod_value
  rw [hsv]
  show (match lookupA attr_name dest.attrs with
    | some destination_values =>
      if List.insertionSort strLeRel (replacementValues options schema sb db attr_name svs) =
          List.insertionSort strLeRel destination_values then none
      else
        match schema.eqOf attr_name with
        | some equality =>
          if equality.describes_case_insensitive_match = true then
            if List.insertionSort strLeRel
                (List.map strLower (List.insertionSort strLeRel destination_values)) =
                List.insertionSort strLeRel
                  (List.map strLower (replacementValues options schema sb db attr_name svs))
            then none
            else some (LMod.replace attr_name
              (replacementValues options schema sb db attr_name svs))
          else some (LMod.replace attr_name
            (replacementValues options schema sb db attr_name svs))
        | none => some (LMod.replace attr_name
            (replacementValues options schema sb db attr_name svs))
    | none => some (LMod.replace attr_name
        (replacementValues options schema sb db attr_name svs))) = none
  rw [hdv]
  show (if List.insertionSort strLeRel (replacementValues options schema sb db attr_name svs) =
        List.insertionSort strLeRel dvs then none
      else
        match schema.eqOf attr_name with
        | some equality =>
          if equality.describes_case_insensitive_match = true then
            if List.insertionSort strLeRel
                (List.map strLower (List.insertionSort strLeRel dvs)) =
                List.insertionSort strLeRel
                  (List.map strLower (replacementValues options schema sb db attr_name svs))
            then none
            else some (LMod.replace attr_name
              (replacementValues options schema sb db attr_name svs))
          else some (LMod.replace attr_name
            (replacementValues options schema sb db attr_name svs))
        | none => some (LMod.replace attr_name
            (replacementValues options schema sb db attr_name svs))) = none
  by_cases h1 : List.insertionSort strLeRel
      (replacementValues options schema sb db attr_name svs) =
      List.insertionSort strLeRel dvs
  · rw [if_pos h1]
  · rw [if_neg h1, heq]
    show (if eqr.describes_case_insensitive_match = true then
        if List.insertionSort strLeRel
            (List.map strLower (List.insertionSort strLeRel dvs)) =
            List.insertionSort strLeRel
              (List.map strLower (replacementValues options schema sb db attr_name svs))
        then none
        else some (LMod.replace attr_name
          (replacementValues options schema sb db attr_name svs))
      else some (LMod.replace attr_name
        (replacementValues options schema sb db attr_name svs))) = none
    rw [hci]
    rw [if_pos rfl, if_pos hkey]

/-- Witness for the amended C3 at a concrete input: source `mail = [A@x]`
and destination `mail = [a@x]` differ only in case under a
case-insensitive equality rule, and `mod_value` emits nothing. -/
theorem mod_value_case_insensitive_noop_witness :
    mod_value "mail" ⟨"cn=a", [("mail", ["A@x"])], []⟩ ciSchemaC3 "dc=s"
      (some ⟨"cn=a", [("mail", ["a@x"])], []⟩) "dc=d"
      ⟨false, false, true, false, [], [], [], false⟩ = none :=
  mod_value_case_insensitive_noop "mail" ⟨"cn=a", [("mail", ["A@x"])], []⟩ ciSchemaC3
    "dc=s" ⟨"cn=a", [("mail", ["a@x"])], []⟩ "dc=d"
    ⟨false, false, true, false, [], [], [], false⟩ ["A@x"] ["a@x"]
    (by decide) (by decide) (by decide)
    (fun s hs => by cases hs) ⟨true⟩ (by decide) (by decide) (by decide) (by decide)

theorem mem_pushDedup {α : Type} [DecidableEq α] {acc : List α} {x m : α}
    (h : m ∈ pushDedup acc x) : m ∈ acc ∨ m = x := by
  unfold pushDedup at h
  by_cases hx : x ∈ acc
  · rw [if_pos hx] at h
    exact Or.inl h
  · rw [if_neg hx] at h
    rcases List.mem_append.mp h with h | h
    · exact Or.inl h
    · exact Or.inr (List.mem_singleton.mp h)

theorem foldl_const_step_mem {α ι : Type} (g : List α → List α) (P : α → Prop)
    (hg : ∀ acc m, m ∈ g acc → m ∈ acc ∨ P m) :
    ∀ (items : List ι) (acc : List α) (m : α),
      m ∈ items.foldl (fun acc2 _ => g acc2) acc → m ∈ acc ∨ P m := by
  intro items
  induction items with
  | nil => intro acc m h; exact Or.inl h
  | cons i rest ih =>
    intro acc m h
    rw [List.foldl_cons] at h
    rcases ih _ m h with h2 | h2
    · exact hg acc m h2
    · exact Or.inr h2

/-- Membership through one textual altered-attribute step. -/
theorem mem_textAlteredStep {options : Options} {schema : LDAPSchema}
    {sb db : String} {source_entry : LDAPEntry} {dest_entry : Option LDAPEntry}
    {attr_name : String} {acc : List (LMod String)} {m : LMod String}
    (h : m ∈ textAlteredStep options schema sb db source_entry dest_entry attr_name acc) :
    m ∈ acc ∨ mod_value attr_name source_entry schema sb dest_entry db options = some m := by
  unfold textAlteredStep at h
  cases hmv : mod_value attr_name source_entry schema sb dest_entry db options with
  | none => rw [hmv] at h; exact Or.inl h
  | some x =>
    rw [hmv] at h
    rcases mem_pushDedup h with h3 | h3
    · exact Or.inl h3
    · exact Or.inr (by rw [h3])

/-- Every mod collected by the altered-attribute loop comes from a
non-ignored key of the altered list via `mod_value`. -/
theorem mem_textAlteredMods {options : Options} {schema : LDAPSchema}
    {sb db : String} {source_entry : LDAPEntry} {dest_entry : Option LDAPEntry}
    {altered : List (String × List (VecDiffType (Option String)))} {m : LMod String}
    (hm : m ∈ textAlteredMods options schema sb db source_entry dest_entry altered) :
    ∃ p ∈ altered, p.1 ∉ options.ignore_attributes ∧
      mod_value p.1 source_entry schema sb dest_entry db options = some m := by
  unfold textAlteredMods at hm
  suffices h : ∀ (l : List (String × List (VecDiffType (Option String))))
      (acc : List (LMod String)), m ∈ l.foldl (fun acc p =>
        if p.1 ∈ options.ignore_attributes then acc
        else p.2.foldl (fun acc2 _ =>
          textAlteredStep options schema sb db source_entry dest_entry p.1 acc2) acc) acc →
      m ∈ acc ∨ ∃ p ∈ l, p.1 ∉ options.ignore_attributes ∧
        mod_value p.1 source_entry schema sb dest_entry db options = some m by
    rcases h altered [] hm with h2 | h2
    · cases h2
    · exact h2
  intro l
  induction l with
  | nil => intro acc h; exact Or.inl h
  | cons p rest ih =>
    intro acc h
    rw [List.foldl_cons] at h
    rcases ih _ h with h2 | h2
    · by_cases hig : p.1 ∈ options.ignore_attributes
      · rw [if_pos hig] at h2
        exact Or.inl h2
      · rw [if_neg hig] at h2
        rcases foldl_const_step_mem
            (textAlteredStep options schema sb db source_entry dest_entry p.1)
            (fun mm => mod_value p.1 source_entry schema sb dest_entry db options = some mm)
            (fun acc3 mm hmm => mem_textAlteredStep hmm) p.2 acc m h2 with h3 | h3
        · exact Or.inl h3
        · exact Or.inr ⟨p, List.mem_cons_self _ _, hig, h3⟩
    · obtain ⟨q, hq, hqig, hqmv⟩ := h2
      exact Or.inr ⟨q, List.mem_cons_of_mem _ hq, hqig, hqmv⟩

/-- Shape of a successful `mod_value` result: a `Replace` of the attribute
with its replacement values when the source entry has the attribute, and a
`Delete` of the attribute otherwise. -/
theorem mod_value_shape {attr_name : String} {source_entry : LDAPEntry}
    {schema : LDAPSchema} {sb : String} {dest : Option LDAPEntry} {db : String}
    {options : Options} {m : LMod String}
    (h : mod_value attr_name source_entry schema sb dest db options = some m) :
    (∃ values, lookupA attr_name source_entry.attrs = some values ∧
      m = LMod.replace attr_name (replacementValues options schema sb db attr_name values)) ∨
    (lookupA attr_name source_entry.attrs = none ∧ m = LMod.delete attr_name []) := by
  unfold mod_value at h
  cases hsv : lookupA attr_name source_entry.attrs with
  | none =>
    rw [hsv] at h
    injection h with h2
    exact Or.inr ⟨rfl, h2.symm⟩
  | some values =>
    rw [hsv] at h
    simp only [] at h
    refine Or.inl ⟨values, rfl, ?_⟩
    cases dest with
    | none =>
      injection h with h2
      exact h2.symm
    | some d =>
      simp only [] at h
      cases hdv : lookupA attr_name d.attrs with
      | none =>
        rw [hdv] at h
        injection h with h2
        exact h2.symm
      | some dvs =>
        rw [hdv] at h
        simp only [] at h
        by_cases h1 : List.insertionSort strLeRel
            (replacementValues options schema sb db attr_name values) =
            List.insertionSort strLeRel dvs
        · rw [if_pos h1] at h
          cases h
        · rw [if_neg h1] at h
          cases heq : schema.eqOf attr_name with
          | none =>
            rw [heq] at h
            injection h with h2
            exact h2.symm
          | some eqr =>
            rw [heq] at h
            simp only [] at h
            by_cases hci : eqr.describes_case_insensitive_match = true
            · rw [if_pos hci] at h
              by_cases h2 : List.insertionSort strLeRel
                  (List.map strLower (List.insertionSort strLeRel dvs)) =
                  List.insertionSort strLeRel (List.map strLower
                    (replacementValues options schema sb db attr_name values))
              · rw [if_pos h2] at h
                cases h
              · rw [if_neg h2] at h
                injection h with h3
                exact h3.symm
            · rw [if_neg hci] at h
              injection h with h3
              exact h3.symm

/-- C5 (counterexample): with source base `dc=a,dc=b` and destination base
`dc=a`, the source value `cn=u,dc=a,dc=b,dc=b` of the DN-syntax attribute
`member` is rewritten by the single-pass string replacement to
`cn=u,dc=a,dc=b` — a value in which the source base survives, as a
comma-led suffix segment (the value equals `"cn=u," ++ source_base`).
The claim that no occurrence of `source_base` remains in any emitted value
is therefore false. -/
theorem dn_rewrite_occurrence_survives :
    buildOperations ⟨false, true, false, false, [], [], [], false⟩ dnSchemaC5
        "dc=a,dc=b" "dc=a"
        [("cn=g", ⟨"cn=g", [("member", ["cn=u,dc=a,dc=b,dc=b"])], []⟩)] [] =
      [LDAPOperation.add ⟨"cn=g", [("member", ["cn=u,dc=a,dc=b"])], []⟩] ∧
      ("cn=u,dc=a,dc=b" = "cn=u," ++ "dc=a,dc=b") ∧
      strContains "cn=u,dc=a,dc=b" "dc=a,dc=b" = true := by
  decide

/-- The replacement-value set of a DN-syntax attribute is the canonical set
of single-pass replacement images of the (possibly objectClass-filtered)
underlying values. -/
theorem replacementValues_dn (options : Options) (schema : LDAPSchema)
    (sb db attr : String) (values : List String)
    (hs : schema.synOf attr = some dnOID) :
    ∃ vals0 : List String, replacementValues options schema sb db attr values =
      sortedDedup (vals0.map (fun s => strReplace s sb db)) := by
  refine ⟨if attr = "objectClass" then
      options.ignore_object_classes.foldl (fun s io => removeVal io s) (sortedDedup values)
    else sortedDedup values, ?_⟩
  unfold replacementValues
  rw [hs]
  simp only []
  rw [if_pos trivial]

/-- Text attributes of a transformed `Add` entry whose schema syntax is the
DN syntax carry only single-pass replacement images. -/
theorem removedEntryToAdd_dn_attr {options : Options} {schema : LDAPSchema}
    {sb db : String} {e0 : LDAPEntry} {p : String × List String}
    (hp : p ∈ (removedEntryToAdd options schema sb db e0).attrs)
    (hsyn : schema.synOf p.1 = some dnOID) :
    ∃ vals0 : List String, p.2 = vals0.map (fun s => strReplace s sb db) := by
  unfold removedEntryToAdd at hp
  simp only [] at hp
  obtain ⟨q, hq, hfq⟩ := List.mem_map.mp hp
  unfold dnRewriteAttr at hfq
  cases hs : schema.synOf q.1 with
  | some syn =>
    rw [hs] at hfq
    simp only [] at hfq
    by_cases hdn : syn = dnOID
    · rw [if_pos hdn] at hfq
      refine ⟨q.2, ?_⟩
      rw [← hfq]
    · rw [if_neg hdn] at hfq
      subst hfq
      rw [hs] at hsyn
      injection hsyn with h2
      exact absurd h2 hdn
  | none =>
    rw [hs] at hfq
    simp only [] at hfq
    subst hfq
    rw [hs] at hsyn
    cases hsyn

/-- Every mod produced by the removed-attribute loop is an `Add` of a
non-ignored removed key with its replacement values. -/
theorem mem_textRemovedMods {options : Options} {schema : LDAPSchema}
    {sb db : String} {source_entry : LDAPEntry} {removed : List String}
    {m : LMod String}
    (hm : m ∈ textRemovedMods options schema sb db source_entry removed) :
    ∃ attr ∈ removed, attr ∉ options.ignore_attributes ∧
      m = LMod.add attr (removedAttrValues options schema sb db source_entry attr) := by
  unfold textRemovedMods at hm
  obtain ⟨attr, hattr, hf⟩ := List.mem_filterMap.mp hm
  by_cases hig : attr ∈ options.ignore_attributes
  · rw [if_pos hig] at hf
    cases hf
  · rw [if_neg hig] at hf
    injection hf with h2
    exact ⟨attr, hattr, hig, h2.symm⟩

/-- C5 (amended): every text attribute value emitted in an `Add` operation,
and every `Replace` mod value set, for an attribute whose schema syntax is
the DN-syntax OID, is obtained from underlying values by one left-to-right
non-overlapping substitution of `source_base` by `destination_base`
(Rust `str::replace` semantics).  The substitution itself can recreate an
occurrence of `source_base` (see the counterexample), so no occurrence-free
guarantee holds. -/
theorem emitted_dn_values_single_pass (options : Options) (schema : LDAPSchema)
    (sb db : String) (se de : List (String × LDAPEntry)) :
    ∀ op ∈ buildOperations options schema sb db se de,
      (∀ e, op = LDAPOperation.add e →
        ∀ p ∈ e.attrs, schema.synOf (p : String × List String).1 = some dnOID →
          ∃ vals0 : List String, p.2 = vals0.map (fun s => strReplace s sb db)) ∧
      (∀ dn mods bins, op = LDAPOperation.modify dn mods bins →
        ∀ m ∈ mods, ∀ attr vs, m = LMod.replace attr vs →
          schema.synOf attr = some dnOID →
            ∃ vals0 : List String,
              vs = sortedDedup (vals0.map (fun s => strReplace s sb db))) := by
  intro op hop
  constructor
  · intro e heq p hp hsyn
    rcases mem_buildOperations hop with ⟨q, hq, hmem⟩ | ⟨hadd, dn, hdn, heq'⟩
    · rcases mem_handleAltered hmem with ⟨e1, _, _, heqop, _⟩ | ⟨_, _, heqop⟩
      · rw [heq] at heqop
        cases heqop
      · rw [heq] at heqop
        cases heqop
    · rw [heq] at heq'
      injection heq' with he
      rw [he] at hp
      exact removedEntryToAdd_dn_attr hp hsyn
  · intro dn mods bins heq m hm attr vs hmrep hsyn
    rcases mem_buildOperations hop with ⟨q, hq, hmem⟩ | ⟨hadd, dn', hdn, heq'⟩
    · rcases mem_handleAltered hmem with ⟨e1, hsrc, hupd, heqop, hne⟩ | ⟨_, _, heqop⟩
      · rw [heq] at heqop
        injection heqop with hdneq hmods hbins
        rw [hmods] at hm
        unfold entryTextMods at hm
        rcases List.mem_append.mp hm with hm2 | hm2
        · obtain ⟨pq, _, hpig, hmv⟩ := mem_textAlteredMods hm2
          rcases mod_value_shape hmv with ⟨values, hlv, hshape⟩ | ⟨_, hshape⟩
          · rw [hmrep] at hshape
            injection hshape with ha hv
            rw [ha] at hsyn
            obtain ⟨vals0, hvals0⟩ :=
              replacementValues_dn options schema sb db pq.1 values hsyn
            exact ⟨vals0, by rw [hv, hvals0]⟩
          · rw [hmrep] at hshape
            cases hshape
        · obtain ⟨attr2, _, _, hshape⟩ := mem_textRemovedMods hm2
          rw [hmrep] at hshape
          cases hshape
      · rw [heq] at heqop
        cases heqop
    · rw [heq] at heq'
      cases heq'

/-- Witness for the amended C5 at a concrete input: the emitted Add's
DN-syntax values are single-pass replacement images. -/
theorem emitted_dn_values_single_pass_witness :
    (opC5 ∈ buildOperations ⟨false, true, false, false, [], [], [], false⟩ dnSchemaC5
        "dc=a,dc=b" "dc=a"
        [("cn=g", ⟨"cn=g", [("member", ["cn=u,dc=a,dc=b,dc=b"])], []⟩)] []) ∧
      ((∀ e, opC5 = LDAPOperation.add e →
          ∀ p ∈ e.attrs, dnSchemaC5.synOf (p : String × List String).1 = some dnOID →
            ∃ vals0 : List String,
              p.2 = vals0.map (fun s => strReplace s "dc=a,dc=b" "dc=a")) ∧
        (∀ dn mods bins, opC5 = LDAPOperation.modify dn mods bins →
          ∀ m ∈ mods, ∀ attr vs, m = LMod.replace attr vs →
            dnSchemaC5.synOf attr = some dnOID →
              ∃ vals0 : List String,
                vs = sortedDedup (vals0.map (fun s => strReplace s "dc=a,dc=b" "dc=a")))) :=
  ⟨by decide,
   emitted_dn_values_single_pass ⟨false, true, false, false, [], [], [], false⟩ dnSchemaC5
     "dc=a,dc=b" "dc=a"
     [("cn=g", ⟨"cn=g", [("member", ["cn=u,dc=a,dc=b,dc=b"])], []⟩)] []
     opC5 (by decide)⟩

/-! ## C7 -/

theorem charToNat_inj {a b : Char} (h : a.toNat = b.toNat) : a = b := by
  apply Char.eq_of_val_eq
  unfold Char.toNat at h
  apply UInt32.ext
  simpa [UInt32.toNat] using h

theorem strToBytes_inj {a b : String} (h : strToBytes a = strToBytes b) : a = b := by
  unfold strToBytes at h
  apply String.ext
  exact List.map_injective_iff.mpr (fun c d hcd => charToNat_inj hcd) h

/-- The attribute of a successful `mod_value` result is the attribute it
was asked about. -/
theorem mod_value_attr {attr_name : String} {source_entry : LDAPEntry}
    {schema : LDAPSchema} {sb : String} {dest : Option LDAPEntry} {db : String}
    {options : Options} {m : LMod String}
    (h : mod_value attr_name source_entry schema sb dest db options = some m) :
    modAttr m = attr_name := by
  rcases mod_value_shape h with ⟨values, _, hm⟩ | ⟨_, hm⟩ <;> rw [hm] <;> rfl

/-- Membership through one binary altered-attribute step. -/
theorem mem_binAlteredStep {source_entry : LDAPEntry} {attr_name : String}
    {acc : List (LMod (List Nat))} {m : LMod (List Nat)}
    (h : m ∈ binAlteredStep source_entry attr_name acc) :
    m ∈ acc ∨ modAttr m = strToBytes attr_name := by
  unfold binAlteredStep at h
  cases hl : lookupA attr_name source_entry.bin_attrs with
  | some values =>
    rw [hl] at h
    rcases mem_pushDedup h with h2 | h2
    · exact Or.inl h2
    · exact Or.inr (by rw [h2]; rfl)
  | none =>
    rw [hl] at h
    rcases List.mem_append.mp h with h2 | h2
    · exact Or.inl h2
    · rw [List.mem_singleton] at h2
      exact Or.inr (by rw [h2]; rfl)

/-- Every mod collected by the binary altered-attribute loop refers (by its
byte-encoded name) to a non-ignored key of the altered list. -/
theorem mem_binAlteredMods {options : Options} {source_entry : LDAPEntry}
    {altered : List (String × List (VecDiffType (Option (List Nat))))}
    {m : LMod (List Nat)}
    (hm : m ∈ binAlteredMods options source_entry altered) :
    ∃ p ∈ altered, p.1 ∉ options.ignore_attributes ∧ modAttr m = strToBytes p.1 := by
  unfold binAlteredMods at hm
  suffices h : ∀ (l : List (String × List (VecDiffType (Option (List Nat)))))
      (acc : List (LMod (List Nat))), m ∈ l.foldl (fun acc p =>
        if p.1 ∈ options.ignore_attributes then acc
        else p.2.foldl (fun acc2 _ => binAlteredStep source_entry p.1 acc2) acc) acc →
      m ∈ acc ∨ ∃ p ∈ l, p.1 ∉ options.ignore_attributes ∧
        modAttr m = strToBytes p.1 by
    rcases h altered [] hm with h2 | h2
    · cases h2
    · exact h2
  intro l
  induction l with
  | nil => intro acc h; exact Or.inl h
  | cons p rest ih =>
    intro acc h
    rw [List.foldl_cons] at h
    rcases ih _ h with h2 | h2
    · by_cases hig : p.1 ∈ options.ignore_attributes
      · rw [if_pos hig] at h2
        exact Or.inl h2
      · rw [if_neg hig] at h2
        rcases foldl_const_step_mem (binAlteredStep source_entry p.1)
            (fun mm => modAttr mm = strToBytes p.1)
            (fun acc3 mm hmm => mem_binAlteredStep hmm) p.2 acc m h2 with h3 | h3
        · exact Or.inl h3
        · exact Or.inr ⟨p, List.mem_cons_self _ _, hig, h3⟩
    · obtain ⟨q, hq, hqig, hqa⟩ := h2
      exact Or.inr ⟨q, List.mem_cons_of_mem _ hq, hqig, hqa⟩

/-- Every mod produced by the binary removed-attribute loop is an `Add` of
a non-ignored removed key with the source values. -/
theorem mem_binRemovedMods {options : Options} {source_entry : LDAPEntry}
    {removed : List String} {m : LMod (List Nat)}
    (hm : m ∈ binRemovedMods options source_entry removed) :
    ∃ attr ∈ removed, attr ∉ options.ignore_attributes ∧
      m = LMod.add (strToBytes attr)
        (((lookupA attr source_entry.bin_attrs).getD []).dedup) := by
  unfold binRemovedMods at hm
  obtain ⟨attr, hattr, hf⟩ := List.mem_filterMap.mp hm
  by_cases hig : attr ∈ options.ignore_attributes
  · rw [if_pos hig] at hf
    cases hf
  · rw [if_neg hig] at hf
    injection hf with h2
    exact ⟨attr, hattr, hig, h2.symm⟩

/-- Every pair surviving the ignore-attribute removal loop is an original
pair whose key differs from every ignored name. -/
theorem mem_foldl_filter {β : Type} :
    ∀ (ig : List String) (m0 : List (String × β)) (p : String × β),
      p ∈ ig.foldl (fun m ia => m.filter (fun q => q.1 ≠ ia)) m0 →
      p ∈ m0 ∧ ∀ ia ∈ ig, p.1 ≠ ia := by
  intro ig
  induction ig with
  | nil =>
    intro m0 p h
    exact ⟨h, fun ia hia => absurd hia (List.not_mem_nil ia)⟩
  | cons ia rest ih =>
    intro m0 p h
    rw [List.foldl_cons] at h
    obtain ⟨hmem, hrest⟩ := ih _ p h
    rw [List.mem_filter] at hmem
    refine ⟨hmem.1, ?_⟩
    intro ia2 hia2
    rcases List.mem_cons.mp hia2 with hia2 | hia2
    · subst hia2
      exact of_decide_eq_true hmem.2
    · exact hrest ia2 hia2

/-- Pairs of the objectClass-filtered map: each key comes from the input
map, and any pair keyed `objectClass` carries only values outside
`ignore_object_classes`. -/
theorem objectClassFiltered_spec {options : Options}
    {attrs1 : List (String × List String)} {q : String × List String}
    (hq : q ∈ objectClassFiltered options attrs1) :
    (∃ r ∈ attrs1, (r : String × List String).1 = q.1) ∧
      (q.1 = "objectClass" → ∀ v ∈ q.2, v ∉ options.ignore_object_classes) := by
  unfold objectClassFiltered at hq
  cases hlook : lookupA "objectClass" attrs1 with
  | some v =>
    rw [hlook] at hq
    rcases List.mem_append.mp hq with hq2 | hq2
    · rw [List.mem_filter] at hq2
      refine ⟨⟨q, hq2.1, rfl⟩, ?_⟩
      intro hoc2
      exact absurd hoc2 (of_decide_eq_true hq2.2)
    · rw [List.mem_singleton] at hq2
      subst hq2
      refine ⟨⟨("objectClass", v), lookupA_mem hlook, rfl⟩, ?_⟩
      intro _ v2 hv2
      rw [List.mem_filter] at hv2
      exact of_decide_eq_true hv2.2
  | none =>
    rw [hlook] at hq
    refine ⟨⟨q, hq, rfl⟩, ?_⟩
    intro hoc2
    have : (lookupA "objectClass" attrs1).isSome = true := by
      apply lookupA_isSome_of_mem (v := q.2)
      rw [← hoc2]
      exact hq
    rw [hlook] at this
    cases this

/-- Each attribute pair of a transformed Add entry respects both ignore
lists, provided the schema does not declare `objectClass` to have DN
syntax. -/
theorem removedEntryToAdd_attrs_spec {options : Options} {schema : LDAPSchema}
    {sb db : String} {e0 : LDAPEntry} {p : String × List String}
    (hoc : ∀ s, schema.synOf "objectClass" = some s → s ≠ dnOID)
    (hp : p ∈ (removedEntryToAdd options schema sb db e0).attrs) :
    (∀ ia ∈ options.ignore_attributes, p.1 ≠ ia) ∧
      (p.1 = "objectClass" → ∀ v ∈ p.2, v ∉ options.ignore_object_classes) := by
  unfold removedEntryToAdd at hp
  simp only [] at hp
  obtain ⟨q, hq, hfq⟩ := List.mem_map.mp hp
  have hkey : p.1 = q.1 := by
    unfold dnRewriteAttr at hfq
    cases hs : schema.synOf q.1 with
    | none =>
      rw [hs] at hfq
      simp only [] at hfq
      rw [← hfq]
    | some syn =>
      rw [hs] at hfq
      simp only [] at hfq
      by_cases hdn : syn = dnOID
      · rw [if_pos hdn] at hfq
        rw [← hfq]
      · rw [if_neg hdn] at hfq
        rw [← hfq]
  obtain ⟨⟨r, hr, hrk⟩, hocvals⟩ := objectClassFiltered_spec hq
  obtain ⟨hre0, hrig⟩ := mem_foldl_filter options.ignore_attributes e0.attrs r hr
  constructor
  · intro ia hia
    rw [hkey, ← hrk]
    exact hrig ia hia
  · intro hpoc v hv
    have hqoc : q.1 = "objectClass" := by rw [← hkey]; exact hpoc
    have hpq : p = q := by
      unfold dnRewriteAttr at hfq
      rw [hqoc] at hfq
      cases hs : schema.synOf "objectClass" with
      | none =>
        rw [hs] at hfq
        simp only [] at hfq
        rw [← hfq]
      | some syn =>
        rw [hs] at hfq
        simp only [] at hfq
        rw [if_neg (hoc syn hs)] at hfq
        rw [← hfq]
    rw [hpq] at hv
    exact hocvals hqoc v hv

/-- C7 (counterexample): the unqualified claim is false.  When the schema
declares DN syntax for `objectClass`, the Add-entry transformation first
filters `ignore_object_classes` out of `objectClass` and only then
rewrites the surviving values by base-DN replacement, so a kept value can
be mapped onto an ignored name: with `x,dc=d` ignored, source value
`x,dc=s` survives the filter and the rewrite `dc=s → dc=d` turns it into
the ignored `x,dc=d`, which the emitted Add entry then carries. -/
theorem ignored_object_class_reappears_after_rewrite :
    ("x,dc=d" ∈ optC7.ignore_object_classes) ∧
      buildOperations optC7 schC7 "dc=s" "dc=d" seC7 [] =
        [LDAPOperation.add ⟨"cn=u,dc=s", [("objectClass", ["x,dc=d"])], []⟩] ∧
      opRespectsIgnores optC7
        (LDAPOperation.add ⟨"cn=u,dc=s", [("objectClass", ["x,dc=d"])], []⟩) = false :=
  ⟨by decide, by decide, by decide⟩

/-- C7 (amended): no operation in the plan references an attribute name
listed in `ignore_attributes` — not in its textual mods, its binary mods
(whose byte-encoded names differ from every ignored name), nor in the
attribute maps of an Add entry — and, provided the schema does not declare
DN syntax for `objectClass` (otherwise the in-place base-DN rewrite can
map a kept `objectClass` value onto an ignored name, see the
counterexample), no emitted Add entry's `objectClass` values contain a
name listed in `ignore_object_classes`. -/
theorem plan_respects_ignores (options : Options) (schema : LDAPSchema)
    (sb db : String) (se de : List (String × LDAPEntry))
    (hoc : ∀ s, schema.synOf "objectClass" = some s → s ≠ dnOID) :
    ∀ op ∈ buildOperations options schema sb db se de,
      opRespectsIgnores options op = true := by
  intro op hop
  rcases mem_buildOperations hop with ⟨q, hq, hmem⟩ | ⟨hadd, dn, hdn, heq⟩
  · rcases mem_handleAltered hmem with ⟨e1, hsrc, hupd, heqop, hne⟩ | ⟨_, _, heqop⟩
    · subst heqop
      unfold opRespectsIgnores
      rw [Bool.and_eq_true]
      constructor
      · rw [List.all_eq_true]
        intro m hm
        unfold entryTextMods at hm
        rcases List.mem_append.mp hm with hm | hm
        · obtain ⟨pq, _, hpig, hmv⟩ := mem_textAlteredMods hm
          rw [decide_eq_true_eq, mod_value_attr hmv]
          exact hpig
        · obtain ⟨attr, _, hig, hshape⟩ := mem_textRemovedMods hm
          rw [decide_eq_true_eq, hshape]
          exact hig
      · rw [List.all_eq_true]
        intro m hm
        unfold entryBinMods at hm
        rw [List.all_eq_true]
        intro ia hia
        rw [decide_eq_true_eq]
        rcases List.mem_append.mp hm with hm | hm
        · obtain ⟨pq, _, hpig, hpa⟩ := mem_binAlteredMods hm
          rw [hpa]
          intro hbe
          exact hpig (strToBytes_inj hbe ▸ hia)
        · obtain ⟨attr, _, hig, hshape⟩ := mem_binRemovedMods hm
          rw [hshape]
          intro hbe
          exact hig (strToBytes_inj hbe ▸ hia)
    · subst heqop
      rfl
  · subst heq
    unfold opRespectsIgnores
    rw [Bool.and_eq_true]
    constructor
    · rw [List.all_eq_true]
      intro p hp
      obtain ⟨hkeys, hocvals⟩ := removedEntryToAdd_attrs_spec hoc hp
      rw [Bool.and_eq_true]
      constructor
      · rw [decide_eq_true_eq]
        intro hmem2
        exact hkeys p.1 hmem2 rfl
      · by_cases hpoc : p.1 = "objectClass"
        · rw [if_pos hpoc, List.all_eq_true]
          intro v hv
          rw [decide_eq_true_eq]
          exact hocvals hpoc v hv
        · rw [if_neg hpoc]
    · rw [List.all_eq_true]
      intro p hp
      rw [decide_eq_true_eq]
      have hp2 : p ∈ options.ignore_attributes.foldl
          (fun m ia => m.filter (fun q => q.1 ≠ ia))
          ((lookupA dn se).getD identityEntry).bin_attrs := by
        unfold removedEntryToAdd at hp
        simpa only [] using hp
      obtain ⟨_, hkeys⟩ := mem_foldl_filter _ _ p hp2
      intro hmem2
      exact hkeys p.1 hmem2 rfl

/-- Witness for C7 at a concrete input: a transformed Add with an ignored
attribute (`userPassword`, textual and binary) and an ignored object
class (`secretClass`) respects both ignore lists. -/
theorem plan_respects_ignores_witness :
    ((LDAPOperation.add ⟨"cn=a", [("cn", ["a"]), ("objectClass", ["top"])], []⟩) ∈
        buildOperations ⟨false, true, false, false, [], ["secretClass"], ["userPassword"], false⟩
          emptySchema "dc=s" "dc=d"
          [("cn=a", ⟨"cn=a",
            [("objectClass", ["top", "secretClass"]), ("cn", ["a"]), ("userPassword", ["x"])],
            [("userPassword", [[1]])]⟩)] []) ∧
      opRespectsIgnores ⟨false, true, false, false, [], ["secretClass"], ["userPassword"], false⟩
        (LDAPOperation.add ⟨"cn=a", [("cn", ["a"]), ("objectClass", ["top"])], []⟩) = true :=
  ⟨by decide,
   plan_respects_ignores ⟨false, true, false, false, [], ["secretClass"], ["userPassword"], false⟩
     emptySchema "dc=s" "dc=d"
     [("cn=a", ⟨"cn=a",
       [("objectClass", ["top", "secretClass"]), ("cn", ["a"]), ("userPassword", ["x"])],
       [("userPassword", [[1]])]⟩)] []
     (fun s hs => by cases hs)
     (LDAPOperation.add ⟨"cn=a", [("cn", ["a"]), ("objectClass", ["top"])], []⟩)
     (by decide)⟩

/-! ## C8 -/

theorem foldl_invariant {α ι : Type} (g : List α → List α) (J : List α → Prop)
    (hg : ∀ acc, J acc → J (g acc)) :
    ∀ (items : List ι) (acc : List α), J acc → J (items.foldl (fun acc2 _ => g acc2) acc) := by
  intro items
  induction items with
  | nil => intro acc h; exact h
  | cons i rest ih =>
    intro acc h
    rw [List.foldl_cons]
    exact ih _ (hg acc h)

theorem textAlteredStep_none {options : Options} {schema : LDAPSchema}
    {sb db : String} {source_entry : LDAPEntry} {dest_entry : Option LDAPEntry}
    {attr_name : String} {acc : List (LMod String)}
    (h : mod_value attr_name source_entry schema sb dest_entry db options = none) :
    textAlteredStep options schema sb db source_entry dest_entry attr_name acc = acc := by
  unfold textAlteredStep
  rw [h]

theorem textAlteredStep_some {options : Options} {schema : LDAPSchema}
    {sb db : String} {source_entry : LDAPEntry} {dest_entry : Option LDAPEntry}
    {attr_name : String} {acc : List (LMod String)} {m0 : LMod String}
    (h : mod_value attr_name source_entry schema sb dest_entry db options = some m0) :
    textAlteredStep options schema sb db source_entry dest_entry attr_name acc =
      pushDedup acc m0 := by
  unfold textAlteredStep
  rw [h]

/-- Pushing a deduplicated element preserves pairwise-distinct attributes
when every earlier element is either the pushed element itself or has a
different attribute. -/
theorem pushDedup_pairwise_invariant {α β : Type} [DecidableEq α] (f : α → β)
    {acc : List α} {m0 : α}
    (h : acc.Pairwise (fun m1 m2 => f m1 ≠ f m2) ∧ ∀ x ∈ acc, x = m0 ∨ f x ≠ f m0) :
    (pushDedup acc m0).Pairwise (fun m1 m2 => f m1 ≠ f m2) ∧
      ∀ x ∈ pushDedup acc m0, x = m0 ∨ f x ≠ f m0 := by
  obtain ⟨hpw, hmem⟩ := h
  unfold pushDedup
  by_cases hin : m0 ∈ acc
  · rw [if_pos hin]
    exact ⟨hpw, hmem⟩
  · rw [if_neg hin]
    constructor
    · rw [List.pairwise_append]
      refine ⟨hpw, List.pairwise_singleton _ _, ?_⟩
      intro x hx y hy
      rw [List.mem_singleton] at hy
      subst hy
      rcases hmem x hx with hx2 | hx2
      · exact absurd (hx2 ▸ hx) hin
      · exact hx2
    · intro x hx
      rcases List.mem_append.mp hx with hx2 | hx2
      · exact hmem x hx2
      · rw [List.mem_singleton] at hx2
        exact Or.inl hx2

/-- The inner fold over the change records of one textual altered attribute
preserves pairwise-distinct attributes, provided no earlier mod (other
than the one this attribute contributes) carries this attribute. -/
theorem innerTextFold_pairwise {options : Options} {schema : LDAPSchema}
    {sb db : String} {source_entry : LDAPEntry} {dest_entry : Option LDAPEntry}
    {attr_name : String} (items : List (VecDiffType (Option String)))
    (acc : List (LMod String))
    (hpw : acc.Pairwise (fun m1 m2 => modAttr m1 ≠ modAttr m2))
    (hattr : ∀ x ∈ acc, modAttr x ≠ attr_name) :
    (items.foldl (fun acc2 _ =>
      textAlteredStep options schema sb db source_entry dest_entry attr_name acc2)
      acc).Pairwise (fun m1 m2 => modAttr m1 ≠ modAttr m2) := by
  cases hmv : mod_value attr_name source_entry schema sb dest_entry db options with
  | none =>
    have := foldl_invariant
      (textAlteredStep options schema sb db source_entry dest_entry attr_name)
      (fun acc => acc.Pairwise (fun m1 m2 => modAttr m1 ≠ modAttr m2))
      (fun acc h => by rw [textAlteredStep_none hmv]; exact h) items acc hpw
    exact this
  | some m0 =>
    have hm0 : modAttr m0 = attr_name := mod_value_attr hmv
    have := foldl_invariant
      (textAlteredStep options schema sb db source_entry dest_entry attr_name)
      (fun acc => acc.Pairwise (fun m1 m2 => modAttr m1 ≠ modAttr m2) ∧
        ∀ x ∈ acc, x = m0 ∨ modAttr x ≠ modAttr m0)
      (fun acc h => by
        rw [textAlteredStep_some hmv]
        exact pushDedup_pairwise_invariant modAttr h) items acc
      ⟨hpw, fun x hx => Or.inr (by rw [hm0]; exact hattr x hx)⟩
    exact this.1

/-- The outer fold of the textual altered-attribute loop yields mods with
pairwise distinct attributes when the altered keys are unique. -/
theorem textAlteredMods_fold_pairwise {options : Options} {schema : LDAPSchema}
    {sb db : String} {source_entry : LDAPEntry} {dest_entry : Option LDAPEntry} :
    ∀ (l : List (String × List (VecDiffType (Option String)))) (acc : List (LMod String)),
      (l.map Prod.fst).Nodup →
      acc.Pairwise (fun m1 m2 => modAttr m1 ≠ modAttr m2) →
      (∀ m ∈ acc, ∀ p ∈ l, modAttr m ≠ (p : String × List (VecDiffType (Option String))).1) →
      (l.foldl (fun acc p =>
        if p.1 ∈ options.ignore_attributes then acc
        else p.2.foldl (fun acc2 _ =>
          textAlteredStep options schema sb db source_entry dest_entry p.1 acc2) acc)
        acc).Pairwise (fun m1 m2 => modAttr m1 ≠ modAttr m2) := by
  intro l
  induction l with
  | nil =>
    intro acc _ hpw _
    simpa using hpw
  | cons p rest ih =>
    intro acc hnd hpw hpre
    rw [List.foldl_cons]
    rw [List.map_cons, List.nodup_cons] at hnd
    apply ih _ hnd.2
    · by_cases hig : p.1 ∈ options.ignore_attributes
      · rw [if_pos hig]
        exact hpw
      · rw [if_neg hig]
        exact innerTextFold_pairwise p.2 acc hpw
          (fun x hx => hpre x hx p (List.mem_cons_self _ _))
    · intro m hm q hq
      by_cases hig : p.1 ∈ options.ignore_attributes
      · rw [if_pos hig] at hm
        exact hpre m hm q (List.mem_cons_of_mem _ hq)
      · rw [if_neg hig] at hm
        rcases foldl_const_step_mem
            (textAlteredStep options schema sb db source_entry dest_entry p.1)
            (fun mm => mod_value p.1 source_entry schema sb dest_entry db options = some mm)
            (fun a mm h => mem_textAlteredStep h) p.2 acc m hm with h2 | h2
        · exact hpre m h2 q (List.mem_cons_of_mem _ hq)
        · rw [mod_value_attr h2]
          intro heq
          apply hnd.1
          rw [heq]
          exact List.mem_map.mpr ⟨q, hq, rfl⟩

/-- The mods of the textual altered-attribute loop have pairwise distinct
attributes when the altered keys are unique. -/
theorem textAlteredMods_pairwise {options : Options} {schema : LDAPSchema}
    {sb db : String} {source_entry : LDAPEntry} {dest_entry : Option LDAPEntry}
    {altered : List (String × List (VecDiffType (Option String)))}
    (hnd : (altered.map Prod.fst).Nodup) :
    (textAlteredMods options schema sb db source_entry dest_entry altered).Pairwise
      (fun m1 m2 => modAttr m1 ≠ modAttr m2) := by
  unfold textAlteredMods
  exact textAlteredMods_fold_pairwise altered [] hnd List.Pairwise.nil
    (fun m hm => absurd hm (List.not_mem_nil m))

/-- The mods of the textual removed-attribute loop have pairwise distinct
attributes when the removed keys are unique. -/
theorem textRemovedMods_pairwise {options : Options} {schema : LDAPSchema}
    {sb db : String} {source_entry : LDAPEntry} {removed : List String}
    (hnd : removed.Nodup) :
    (textRemovedMods options schema sb db source_entry removed).Pairwise
      (fun m1 m2 => modAttr m1 ≠ modAttr m2) := by
  induction removed with
  | nil =>
    unfold textRemovedMods
    simp
  | cons attr rest ih =>
    rw [List.nodup_cons] at hnd
    unfold textRemovedMods
    by_cases hig : attr ∈ options.ignore_attributes
    · simp only [List.filterMap_cons, if_pos hig]
      exact ih hnd.2
    · simp only [List.filterMap_cons, if_neg hig]
      rw [List.pairwise_cons]
      constructor
      · intro m hm
        obtain ⟨attr2, hattr2, _, hshape⟩ :=
          mem_textRemovedMods (by unfold textRemovedMods; exact hm)
        rw [hshape]
        show attr ≠ attr2
        intro heq
        exact hnd.1 (heq ▸ hattr2)
      · exact ih hnd.2

theorem binAlteredStep_some {source_entry : LDAPEntry} {attr_name : String}
    {acc : List (LMod (List Nat))} {values : List (List Nat)}
    (h : lookupA attr_name source_entry.bin_attrs = some values) :
    binAlteredStep source_entry attr_name acc =
      pushDedup acc (LMod.replace (strToBytes attr_name) values.dedup) := by
  unfold binAlteredStep
  rw [h]

theorem binAlteredStep_none {source_entry : LDAPEntry} {attr_name : String}
    {acc : List (LMod (List Nat))}
    (h : lookupA attr_name source_entry.bin_attrs = none) :
    binAlteredStep source_entry attr_name acc =
      acc ++ [LMod.delete (strToBytes attr_name) []] := by
  unfold binAlteredStep
  rw [h]

/-- The inner fold over the change records of one binary altered attribute
preserves pairwise-distinct attributes; when the source entry lacks the
attribute this needs the fact that a destination-only attribute produces
at most one change record. -/
theorem innerBinFold_pairwise {source_entry : LDAPEntry} {attr_name : String}
    (items : List (VecDiffType (Option (List Nat)))) (acc : List (LMod (List Nat)))
    (hpw : acc.Pairwise (fun m1 m2 => modAttr m1 ≠ modAttr m2))
    (hattr : ∀ x ∈ acc, modAttr x ≠ strToBytes attr_name)
    (hlen : lookupA attr_name source_entry.bin_attrs = none → items.length ≤ 1) :
    (items.foldl (fun acc2 _ => binAlteredStep source_entry attr_name acc2)
      acc).Pairwise (fun m1 m2 => modAttr m1 ≠ modAttr m2) := by
  cases hl : lookupA attr_name source_entry.bin_attrs with
  | some values =>
    exact (foldl_invariant (binAlteredStep source_entry attr_name)
      (fun acc => acc.Pairwise (fun m1 m2 => modAttr m1 ≠ modAttr m2) ∧
        ∀ x ∈ acc, x = LMod.replace (strToBytes attr_name) values.dedup ∨
          modAttr x ≠ modAttr (LMod.replace (strToBytes attr_name) values.dedup))
      (fun acc h => by
        rw [binAlteredStep_some hl]
        exact pushDedup_pairwise_invariant modAttr h) items acc
      ⟨hpw, fun x hx => Or.inr (hattr x hx)⟩).1
  | none =>
    have hlen2 := hlen hl
    cases items with
    | nil => simpa using hpw
    | cons i rest =>
      cases rest with
      | nil =>
        rw [List.foldl_cons, List.foldl_nil, binAlteredStep_none hl]
        rw [List.pairwise_append]
        refine ⟨hpw, List.pairwise_singleton _ _, ?_⟩
        intro x hx y hy
        rw [List.mem_singleton] at hy
        subst hy
        exact hattr x hx
      | cons j rest2 =>
        exact absurd hlen2 (by simp)

/-- The outer fold of the binary altered-attribute loop yields mods with
pairwise distinct (byte-encoded) attributes when the altered keys are
unique and destination-only attributes carry at most one change record. -/
theorem binAlteredMods_fold_pairwise {options : Options} {source_entry : LDAPEntry} :
    ∀ (l : List (String × List (VecDiffType (Option (List Nat)))))
      (acc : List (LMod (List Nat))),
      (l.map Prod.fst).Nodup →
      acc.Pairwise (fun m1 m2 => modAttr m1 ≠ modAttr m2) →
      (∀ m ∈ acc, ∀ p ∈ l,
        modAttr m ≠ strToBytes (p : String × List (VecDiffType (Option (List Nat)))).1) →
      (∀ p ∈ l, lookupA (p : String × List (VecDiffType (Option (List Nat)))).1
        source_entry.bin_attrs = none → p.2.length ≤ 1) →
      (l.foldl (fun acc p =>
        if p.1 ∈ options.ignore_attributes then acc
        else p.2.foldl (fun acc2 _ => binAlteredStep source_entry p.1 acc2) acc)
        acc).Pairwise (fun m1 m2 => modAttr m1 ≠ modAttr m2) := by
  intro l
  induction l with
  | nil =>
    intro acc _ hpw _ _
    simpa using hpw
  | cons p rest ih =>
    intro acc hnd hpw hpre hlen
    rw [List.foldl_cons]
    rw [List.map_cons, List.nodup_cons] at hnd
    apply ih _ hnd.2
    · by_cases hig : p.1 ∈ options.ignore_attributes
      · rw [if_pos hig]
        exact hpw
      · rw [if_neg hig]
        exact innerBinFold_pairwise p.2 acc hpw
          (fun x hx => hpre x hx p (List.mem_cons_self _ _))
          (hlen p (List.mem_cons_self _ _))
    · intro m hm q hq
      by_cases hig : p.1 ∈ options.ignore_attributes
      · rw [if_pos hig] at hm
        exact hpre m hm q (List.mem_cons_of_mem _ hq)
      · rw [if_neg hig] at hm
        rcases foldl_const_step_mem (binAlteredStep source_entry p.1)
            (fun mm => modAttr mm = strToBytes p.1)
            (fun a mm h => mem_binAlteredStep h) p.2 acc m hm with h2 | h2
        · exact hpre m h2 q (List.mem_cons_of_mem _ hq)
        · rw [h2]
          intro heq
          apply hnd.1
          rw [strToBytes_inj heq]
          exact List.mem_map.mpr ⟨q, hq, rfl⟩
    · intro q hq
      exact hlen q (List.mem_cons_of_mem _ hq)

/-- The mods of the binary removed-attribute loop have pairwise distinct
attributes when the removed keys are unique. -/
theorem binRemovedMods_pairwise {options : Options} {source_entry : LDAPEntry}
    {removed : List String} (hnd : removed.Nodup) :
    (binRemovedMods options source_entry removed).Pairwise
      (fun m1 m2 => modAttr m1 ≠ modAttr m2) := by
  induction removed with
  | nil =>
    unfold binRemovedMods
    simp
  | cons attr rest ih =>
    rw [List.nodup_cons] at hnd
    unfold binRemovedMods
    by_cases hig : attr ∈ options.ignore_attributes
    · simp only [List.filterMap_cons, if_pos hig]
      exact ih hnd.2
    · simp only [List.filterMap_cons, if_neg hig]
      rw [List.pairwise_cons]
      constructor
      · intro m hm
        obtain ⟨attr2, hattr2, _, hshape⟩ :=
          mem_binRemovedMods (by unfold binRemovedMods; exact hm)
        rw [hshape]
        show strToBytes attr ≠ strToBytes attr2
        intro heq
        exact hnd.1 (strToBytes_inj heq ▸ hattr2)
      · exact ih hnd.2

/-- The mods of the binary altered-attribute loop have pairwise distinct
attributes when the altered keys are unique and destination-only
attributes carry at most one change record. -/
theorem binAlteredMods_pairwise {options : Options} {source_entry : LDAPEntry}
    {altered : List (String × List (VecDiffType (Option (List Nat))))}
    (hnd : (altered.map Prod.fst).Nodup)
    (hlen : ∀ p ∈ altered,
      lookupA (p : String × List (VecDiffType (Option (List Nat)))).1
        source_entry.bin_attrs = none → p.2.length ≤ 1) :
    (binAlteredMods options source_entry altered).Pairwise
      (fun m1 m2 => modAttr m1 ≠ modAttr m2) := by
  unfold binAlteredMods
  exact binAlteredMods_fold_pairwise altered [] hnd List.Pairwise.nil
    (fun m hm => absurd hm (List.not_mem_nil m)) hlen

/-- The diff of an empty vector against any vector has at most one change
record (the single `inserted` record, when the right side is nonempty). -/
theorem vecDiff_nil_left_length {σ ρ : Type} [DecidableEq σ]
    (dv : σ → σ → ρ) (idv : σ → ρ) (w : List σ) :
    (vecDiff dv idv [] w).length ≤ 1 := by
  unfold vecDiff
  cases w with
  | nil => simp [vecDiffAux]
  | cons x xs => simp [vecDiffAux]

/-- A binary altered attribute missing from the source map is a
destination-only key, whose change-record list is the diff of the empty
vector — at most one record. -/
theorem binAltered_dest_only_short {a : List (String × List (List Nat))}
    {b : List (String × List (List Nat))} {attr : String}
    {items : List (VecDiffType (Option (List Nat)))}
    (hmem : (attr, items) ∈ (binAttrsDiff a b).altered)
    (hnone : lookupA attr a = none) : items.length ≤ 1 := by
  unfold binAttrsDiff at hmem
  rcases mem_hashMapDiff_altered.mp hmem with ⟨v, w, hv, _, _, _⟩ | ⟨w, _, _, hitems⟩
  · have := lookupA_isSome_of_mem hv
    rw [hnone] at this; cases this
  · rw [hitems]
    exact vecDiff_nil_left_length _ _ w

/-- The complete textual mod list collected for one entry has pairwise
distinct attributes when the altered keys are unique, the removed keys are
unique, and no key is both removed and altered. -/
theorem entryTextMods_pairwise {options : Options} {schema : LDAPSchema}
    {sb db : String} {source_entry : LDAPEntry} {dest_entry : Option LDAPEntry}
    {ch : LDAPEntryDiff}
    (hndalt : (ch.attrs.altered.map Prod.fst).Nodup)
    (hndrem : ch.attrs.removed.Nodup)
    (hdisj : ∀ attr ∈ ch.attrs.removed, ∀ p ∈ ch.attrs.altered,
      attr ≠ (p : String × List (VecDiffType (Option String))).1) :
    (entryTextMods options schema sb db source_entry dest_entry ch).Pairwise
      (fun m1 m2 => modAttr m1 ≠ modAttr m2) := by
  unfold entryTextMods
  rw [List.pairwise_append]
  refine ⟨textAlteredMods_pairwise hndalt, textRemovedMods_pairwise hndrem, ?_⟩
  intro a ha b hb
  obtain ⟨p, hp, _, hmv⟩ := mem_textAlteredMods ha
  obtain ⟨attr, hattr, _, hshape⟩ := mem_textRemovedMods hb
  rw [mod_value_attr hmv, hshape]
  show p.1 ≠ attr
  exact fun h => hdisj attr hattr p hp h.symm

/-- The complete binary mod list collected for one entry has pairwise
distinct attributes when the altered keys are unique, the removed keys are
unique, no key is both removed and altered, and destination-only altered
attributes carry at most one change record. -/
theorem entryBinMods_pairwise {options : Options} {source_entry : LDAPEntry}
    {ch : LDAPEntryDiff}
    (hndalt : (ch.bin_attrs.altered.map Prod.fst).Nodup)
    (hndrem : ch.bin_attrs.removed.Nodup)
    (hdisj : ∀ attr ∈ ch.bin_attrs.removed, ∀ p ∈ ch.bin_attrs.altered,
      attr ≠ (p : String × List (VecDiffType (Option (List Nat)))).1)
    (hlen : ∀ p ∈ ch.bin_attrs.altered,
      lookupA (p : String × List (VecDiffType (Option (List Nat)))).1
        source_entry.bin_attrs = none → p.2.length ≤ 1) :
    (entryBinMods options source_entry ch).Pairwise
      (fun m1 m2 => modAttr m1 ≠ modAttr m2) := by
  unfold entryBinMods
  rw [List.pairwise_append]
  refine ⟨binAlteredMods_pairwise hndalt hlen, binRemovedMods_pairwise hndrem, ?_⟩
  intro a ha b hb
  obtain ⟨p, hp, _, hab⟩ := mem_binAlteredMods ha
  obtain ⟨attr, hattr, _, hshape⟩ := mem_binRemovedMods hb
  rw [hab, hshape]
  show strToBytes p.1 ≠ strToBytes attr
  intro h
  exact hdisj attr hattr p hp (strToBytes_inj h).symm

/-- C8: within a single `Modify` emitted by the plan builder, at most one
mod per (kind, attribute) survives on each of the textual and binary mod
lists, and no mod appears twice by value: the mods collected for one
entry have pairwise distinct attributes, hence pairwise distinct
(kind, attribute) pairs and no duplicates. -/
theorem modify_mods_unique {options : Options} {schema : LDAPSchema}
    {sb db : String} {se de : List (String × LDAPEntry)}
    (hse : WFStore se) (hde : WFStore de)
    {dn : String} {mods : List (LMod String)} {bins : List (LMod (List Nat))}
    (hop : LDAPOperation.modify dn mods bins ∈
      buildOperations options schema sb db se de) :
    (mods.Pairwise (fun m1 m2 =>
        ¬(modKind m1 = modKind m2 ∧ modAttr m1 = modAttr m2)) ∧ mods.Nodup) ∧
    (bins.Pairwise (fun m1 m2 =>
        ¬(modKind m1 = modKind m2 ∧ modAttr m1 = modAttr m2)) ∧ bins.Nodup) := by
  rcases mem_buildOperations hop with ⟨p, hp, hha⟩ | ⟨_, dn2, _, heqadd⟩
  · rcases mem_handleAltered hha with
      ⟨source_entry, hlook, _, heq, _⟩ | ⟨_, _, heqdel⟩
    · injection heq with h1 h2 h3
      unfold entriesDiff at hp
      have hp2 : (p.1, p.2) ∈ (hashMapDiff ldapEntryDiff
          (fun w => ldapEntryDiff identityEntry w) se de).altered := hp
      rcases mem_hashMapDiff_altered.mp hp2 with
        ⟨v, w, hvse, hwde, _, hch⟩ | ⟨w, _, hsnone, _⟩
      · have hlv : lookupA p.1 se = some v := lookupA_of_mem_nodup hse.1 hvse
        rw [hlook] at hlv
        injection hlv with hsv
        have hwfv := hse.2 (p.1, v) hvse
        have hwfw := hde.2 (p.1, w) (lookupA_mem hwde)
        have hndaltT : (((attrsDiff v.attrs w.attrs).altered).map Prod.fst).Nodup := by
          unfold attrsDiff
          exact hashMapDiff_altered_keys_nodup hwfv.1 hwfw.1
        have hndremT : (attrsDiff v.attrs w.attrs).removed.Nodup := by
          unfold attrsDiff
          exact hashMapDiff_removed_nodup v.attrs w.attrs hwfv.1
        have hdisjT : ∀ attr ∈ (attrsDiff v.attrs w.attrs).removed,
            ∀ q ∈ (attrsDiff v.attrs w.attrs).altered, attr ≠ q.1 := by
          intro attr hattr q hq heqa
          subst heqa
          unfold attrsDiff at hattr hq
          exact hashMapDiff_removed_not_altered hattr q.2 hq
        have hndaltB :
            (((binAttrsDiff v.bin_attrs w.bin_attrs).altered).map Prod.fst).Nodup := by
          unfold binAttrsDiff
          exact hashMapDiff_altered_keys_nodup hwfv.2 hwfw.2
        have hndremB : (binAttrsDiff v.bin_attrs w.bin_attrs).removed.Nodup := by
          unfold binAttrsDiff
          exact hashMapDiff_removed_nodup v.bin_attrs w.bin_attrs hwfv.2
        have hdisjB : ∀ attr ∈ (binAttrsDiff v.bin_attrs w.bin_attrs).removed,
            ∀ q ∈ (binAttrsDiff v.bin_attrs w.bin_attrs).altered, attr ≠ q.1 := by
          intro attr hattr q hq heqa
          subst heqa
          unfold binAttrsDiff at hattr hq
          exact hashMapDiff_removed_not_altered hattr q.2 hq
        have hlenB : ∀ q ∈ (binAttrsDiff v.bin_attrs w.bin_attrs).altered,
            lookupA q.1 v.bin_attrs = none → q.2.length ≤ 1 := by
          intro q hq hnone
          exact binAltered_dest_only_short hq hnone
        subst hsv
        rw [hch] at h2 h3
        have hT : (entryTextMods options schema sb db source_entry (lookupA p.1 de)
            (ldapEntryDiff source_entry w)).Pairwise
            (fun m1 m2 => modAttr m1 ≠ modAttr m2) :=
          entryTextMods_pairwise hndaltT hndremT hdisjT
        have hB : (entryBinMods options source_entry
            (ldapEntryDiff source_entry w)).Pairwise
            (fun m1 m2 => modAttr m1 ≠ modAttr m2) :=
          entryBinMods_pairwise hndaltB hndremB hdisjB hlenB
        rw [h2, h3]
        refine ⟨⟨hT.imp ?_, hT.imp ?_⟩, hB.imp ?_, hB.imp ?_⟩
        · intro a b hne hand
          exact hne hand.2
        · intro a b hne heqm
          exact hne (by rw [heqm])
        · intro a b hne hand
          exact hne hand.2
        · intro a b hne heqm
          exact hne (by rw [heqm])
      · rw [hsnone] at hlook
        exact Option.noConfusion hlook
    · exact LDAPOperation.noConfusion heqdel
  · exact LDAPOperation.noConfusion heqadd

/-- Witness for C8 at a concrete input: the plan for the fixture stores
contains the Modify `(cn=b, [Replace sn [x]], [Delete photo ∅])`, and both
of its mod lists satisfy the per-(kind, attribute) uniqueness. -/
theorem modify_mods_unique_witness :
    (([LMod.replace "sn" ["x"]] : List (LMod String)).Pairwise (fun m1 m2 =>
        ¬(modKind m1 = modKind m2 ∧ modAttr m1 = modAttr m2)) ∧
      ([LMod.replace "sn" ["x"]] : List (LMod String)).Nodup) ∧
    (([LMod.delete (strToBytes "photo") []] : List (LMod (List Nat))).Pairwise
        (fun m1 m2 => ¬(modKind m1 = modKind m2 ∧ modAttr m1 = modAttr m2)) ∧
      ([LMod.delete (strToBytes "photo") []] : List (LMod (List Nat))).Nodup) :=
  @modify_mods_unique optC8 emptySchema "dc=s" "dc=d" seC8 deC8
    (by decide) (by decide) "cn=b" [LMod.replace "sn" ["x"]]
    [LMod.delete (strToBytes "photo") []] (by decide)
